import Mathlib

/-!
# Verification of the k-of-n secret reconstruction program

This file embeds the core of `src/index.js` (two programs separated by a
marker: a `Fraction`-based Lagrange evaluator, and a `Rational`-based
consensus reconstruction) and proves the specification claims about it.

JavaScript `BigInt` values are modelled as `Int` (both are unbounded);
thrown exceptions are modelled with `Except RecErr`; JS truncated `BigInt`
division and remainder (`/`, `%`) are `Int.tdiv` and `Int.tmod`.
-/

deriving instance DecidableEq for Except

/-- Errors thrown by the source. `denominatorZero` is the constructor throw
(`'Denominator cannot be 0'` / `'Denominator zero'`), `divideByZero` is
`Rational.div`'s throw (`'Divide by zero'`), `notEnoughShares` is
`'Not enough shares in input'`, `noConsensus` is
`'Could not determine consensus secret'`. -/
inductive RecErr
  | denominatorZero
  | divideByZero
  | notEnoughShares
  | noConsensus
deriving DecidableEq, Repr

/-- The spec's `DivisionByZeroError` covers both of the source's
zero-denominator throw messages. -/
def RecErr.isDivisionByZero : RecErr → Bool
  | .denominatorZero => true
  | .divideByZero => true
  | _ => false

/-- One decoded share `{x, y}` (base-decoding of the JSON input is outside
the core; see spec section 1). -/
structure Share where
  x : Int
  y : Int
deriving DecidableEq, Repr, Inhabited

/-- Structural-fuel Euclidean loop. The source's `while (b !== 0n) { t = a % b;
a = b; b = t; }` terminates because the second argument strictly decreases, so
running it with fuel `b + 1` computes exactly the same value as the loop. -/
def euclidFuel : Nat → Nat → Nat → Nat
  | 0, a, _ => a
  | fuel + 1, a, b => if b = 0 then a else euclidFuel fuel b (a % b)

/-- `gcdBigInt` from the second program: absolute values, then the Euclidean
loop. -/
def gcdBigInt (a b : Int) : Int :=
  (euclidFuel (b.natAbs + 1) a.natAbs b.natAbs : Nat)

/-- `bigGcd` from the first program; its body is textually identical to
`gcdBigInt`. -/
def bigGcd (a b : Int) : Int :=
  (euclidFuel (b.natAbs + 1) a.natAbs b.natAbs : Nat)

/-- The exact rational type of the second program: a numerator/denominator
pair of `BigInt`s. -/
structure Rational where
  num : Int
  den : Int
deriving DecidableEq, Repr

/-- Body of the `Rational` constructor after its zero-denominator check:
flip signs so the denominator is positive, then divide both components by
their gcd (JS `BigInt` division truncates, hence `Int.tdiv`). -/
def Rational.normalize (num den : Int) : Rational :=
  let num' := if den < 0 then -num else num
  let den' := if den < 0 then -den else den
  let g := gcdBigInt num' den'
  ⟨num'.tdiv g, den'.tdiv g⟩

/-- The `Rational` constructor: throws `'Denominator zero'` on a zero
denominator, otherwise normalizes. -/
def Rational.make (num den : Int) : Except RecErr Rational :=
  if den = 0 then .error .denominatorZero else .ok (Rational.normalize num den)

/-- `Rational.zero()`; the constructor is called with denominator `1n`, so
its throw branch is dead and we take the normalizing body directly. -/
def Rational.zero : Rational := Rational.normalize 0 1

/-- `Rational.fromBigInt(b)`: constructor call with denominator `1n` (never
throws). -/
def Rational.fromBigInt (b : Int) : Rational := Rational.normalize b 1

/-- `Rational.isZero()`. -/
def Rational.isZero (a : Rational) : Bool := a.num = 0

/-- `Rational.add`: a constructor call, which can in principle throw. -/
def Rational.add (a b : Rational) : Except RecErr Rational :=
  Rational.make (a.num * b.den + b.num * a.den) (a.den * b.den)

/-- `Rational.sub`. -/
def Rational.sub (a b : Rational) : Except RecErr Rational :=
  Rational.make (a.num * b.den - b.num * a.den) (a.den * b.den)

/-- `Rational.mul`. -/
def Rational.mul (a b : Rational) : Except RecErr Rational :=
  Rational.make (a.num * b.num) (a.den * b.den)

/-- `Rational.div`: throws `'Divide by zero'` when the divisor's numerator is
zero, otherwise multiplies by the reciprocal. -/
def Rational.div (a b : Rational) : Except RecErr Rational :=
  if b.num = 0 then .error .divideByZero
  else Rational.make (a.num * b.den) (a.den * b.num)

/-- `Rational.neg`. -/
def Rational.neg (a : Rational) : Except RecErr Rational :=
  Rational.make (-a.num) a.den

/-- `Rational.toIntegerIfExact`: the integer value when the denominator is 1
or divides the numerator evenly (JS `%` / `/` on `BigInt` truncate), else
`null` (modelled by `none`). -/
def Rational.toIntegerIfExact (a : Rational) : Option Int :=
  if a.den = 1 then some a.num
  else if a.num.tmod a.den = 0 then some (a.num.tdiv a.den)
  else none

/-- Inner loop of `reconstructAtOrigin`: for each index `j` (skipping
`j = i`) multiply the basis accumulator by
`(new Rational(-xOther, 1n)).div(new Rational(xPos - xOther, 1n))`.
The list argument is the remaining suffix of the point list and `j` is the
index of its head in the full list. -/
def basisLoop (xPos : Int) (i : Nat) : Nat → List Share → Rational →
    Except RecErr Rational
  | _, [], acc => .ok acc
  | j, s :: rest, acc =>
    if j = i then basisLoop xPos i (j + 1) rest acc
    else do
      let numerator ← Rational.make (-s.x) 1
      let denominator ← Rational.make (xPos - s.x) 1
      let q ← numerator.div denominator
      let acc' ← acc.mul q
      basisLoop xPos i (j + 1) rest acc'

/-- Outer loop of `reconstructAtOrigin`: for each index `i`, compute the
Lagrange basis over the whole list, multiply by `y_i` and add to the total. -/
def sumLoop (pts : List Share) : Nat → List Share → Rational →
    Except RecErr Rational
  | _, [], total => .ok total
  | i, s :: rest, total => do
    let basis ← basisLoop s.x i 0 pts (Rational.fromBigInt 1)
    let term ← (Rational.fromBigInt s.y).mul basis
    let total' ← total.add term
    sumLoop pts (i + 1) rest total'

/-- `reconstructAtOrigin(dataSubset)`: exact Lagrange interpolation of the
given points, evaluated at `x = 0`. -/
def reconstructAtOrigin (pts : List Share) : Except RecErr Rational :=
  sumLoop pts 0 pts Rational.zero

/-- The `Fraction` class of the first program (fields `n`, `d`). -/
structure Fraction where
  n : Int
  d : Int
deriving DecidableEq, Repr

/-- Body of the `Fraction` constructor after its zero-denominator check
(textually the same normalization as `Rational`'s). -/
def Fraction.normalize (numer denom : Int) : Fraction :=
  let numer' := if denom < 0 then -numer else numer
  let denom' := if denom < 0 then -denom else denom
  let g := bigGcd numer' denom'
  ⟨numer'.tdiv g, denom'.tdiv g⟩

/-- The `Fraction` constructor (`'Denominator cannot be 0'` on zero). -/
def Fraction.make (numer denom : Int) : Except RecErr Fraction :=
  if denom = 0 then .error .denominatorZero else .ok (Fraction.normalize numer denom)

/-- `Fraction.fromBigInt`. -/
def Fraction.fromBigInt (b : Int) : Fraction := Fraction.normalize b 1

/-- `Fraction.add`. -/
def Fraction.add (a b : Fraction) : Except RecErr Fraction :=
  Fraction.make (a.n * b.d + b.n * a.d) (a.d * b.d)

/-- `Fraction.mul`. -/
def Fraction.mul (a b : Fraction) : Except RecErr Fraction :=
  Fraction.make (a.n * b.n) (a.d * b.d)

/-- `Fraction.asIntegerIfWhole`: `{whole: true, value}` becomes `some value`,
`{whole: false, frac}` becomes `none`. -/
def Fraction.asIntegerIfWhole (a : Fraction) : Option Int :=
  if a.d = 1 then some a.n
  else if a.n.tmod a.d = 0 then some (a.n.tdiv a.d)
  else none

/-- Inner loop of `lagrangeAtZeroFraction`:
`Li = Li.mul(new Fraction(-xj, xi - xj))`, skipping `j = i`; the `Fraction`
constructor itself throws when `xi = xj`. -/
def fracBasisLoop (xi : Int) (i : Nat) : Nat → List Share → Fraction →
    Except RecErr Fraction
  | _, [], acc => .ok acc
  | j, p :: rest, acc =>
    if j = i then fracBasisLoop xi i (j + 1) rest acc
    else do
      let f ← Fraction.make (-p.x) (xi - p.x)
      let acc' ← acc.mul f
      fracBasisLoop xi i (j + 1) rest acc'

/-- Outer loop of `lagrangeAtZeroFraction`. -/
def fracSumLoop (pts : List Share) : Nat → List Share → Fraction →
    Except RecErr Fraction
  | _, [], res => .ok res
  | i, p :: rest, res => do
    let li ← fracBasisLoop p.x i 0 pts (Fraction.normalize 1 1)
    let t ← (Fraction.fromBigInt p.y).mul li
    let res' ← res.add t
    fracSumLoop pts (i + 1) rest res'

/-- `lagrangeAtZeroFraction(pointsSubset)` from the first program. -/
def lagrangeAtZeroFraction (pts : List Share) : Except RecErr Fraction :=
  fracSumLoop pts 0 pts (Fraction.normalize 0 1)

/-- `backtrack` of `chooseCombos`, made structurally recursive on
`rem = k - chosen.length` (the source grows `chosen` one element at a time
from `[]`, so `chosen.length === k` is `rem = 0` and the loop bound
`i <= n - (k - chosen.length)` makes the loop run for
`n - rem - start` values of `i`, none when the JS bound is below `start`,
matching truncated `Nat` subtraction). `arr[i]` is `arr.getD i 0`; every
reached `i` is in range. -/
def backtrack (arr : List Nat) (n : Nat) : Nat → Nat → List Nat →
    List (List Nat)
  | 0, _, chosen => [chosen]
  | rem + 1, start, chosen =>
    (List.range' start (n - rem - start)).flatMap
      (fun i => backtrack arr n rem (i + 1) (chosen ++ [arr.getD i 0]))

/-- `chooseCombos(arr, k)`: every size-`k` combination of `arr`'s entries, in
lexicographic position order. -/
def chooseCombos (arr : List Nat) (k : Nat) : List (List Nat) :=
  backtrack arr arr.length k 0 []

/-- Stable insertion into a list sorted by `x`, placing the new element
before the first strictly larger `x`. -/
def insertShare (a : Share) : List Share → List Share
  | [] => [a]
  | t :: ts => if a.x ≤ t.x then a :: t :: ts else t :: insertShare a ts

/-- The share sort `shares.sort((a, b) => ...)` by `x`: JS `Array#sort` with
a comparator is a stable sort, whose result is the unique stable-by-`x`
reordering; `sortByX` computes exactly that (stable insertion sort). -/
def sortByX : List Share → List Share
  | [] => []
  | a :: l => insertShare a (sortByX l)

/-- The tally key `` `${num}/${den}` ``: since tallied rationals are
normalized (denominator positive), the string is in bijection with the
`(num, den)` pair, which we use as the key directly. -/
def keyOf (r : Rational) : Int × Int := (r.num, r.den)

/-- One step of the `frequency` map update
`frequency.set(key, (frequency.get(key) || 0) + 1)`; a JS `Map` keeps
insertion order, updates in place, and appends unknown keys. -/
def bumpFreq (freq : List ((Int × Int) × Nat)) (k : Int × Int) :
    List ((Int × Int) × Nat) :=
  if freq.any (fun e => decide (e.1 = k)) then
    freq.map (fun e => if e.1 = k then (e.1, e.2 + 1) else e)
  else freq ++ [(k, 1)]

/-- One step of `if (!comboTrace.has(key)) comboTrace.set(key, subset)`. -/
def addTrace (tr : List ((Int × Int) × List Share)) (k : Int × Int)
    (s : List Share) : List ((Int × Int) × List Share) :=
  if tr.any (fun e => decide (e.1 = k)) then tr else tr ++ [(k, s)]

/-- The tally-building loop over all per-subset results, in enumeration
order. -/
def buildTally (l : List ((Int × Int) × List Share)) :
    List ((Int × Int) × Nat) × List ((Int × Int) × List Share) :=
  l.foldl (fun acc e => (bumpFreq acc.1 e.1, addTrace acc.2 e.1 e.2)) ([], [])

/-- The leader-selection loop: start from `topKey = null`, `topCount = -1`,
update only on strictly greater counts, in map insertion order. -/
def selectLeader (freq : List ((Int × Int) × Nat)) : Option (Int × Int) × Int :=
  freq.foldl (fun top e => if (e.2 : Int) > top.2 then (some e.1, (e.2 : Int)) else top)
    (none, -1)

/-- `comboTrace.get(topKey)`: the subset stored for the winning key (always
present when the key won). -/
def lookupTrace (tr : List ((Int × Int) × List Share)) (k : Int × Int) :
    List Share :=
  ((tr.find? (fun e => decide (e.1 = k))).map (fun e => e.2)).getD []

/-- Per-subset interpolation results paired with the interpolated subset, in
subset-enumeration order (the source computes these inside the tally loop;
an error thrown by any `reconstructAtOrigin` call aborts the whole run, so
collecting first is observationally the same). -/
def collectCands (shares : List Share) :
    List (List Nat) → Except RecErr (List ((Int × Int) × List Share))
  | [] => .ok []
  | c :: rest => do
    let subset := c.map (fun i => shares.getD i default)
    let cand ← reconstructAtOrigin subset
    let tail ← collectCands shares rest
    .ok ((keyOf cand, subset) :: tail)

/-- The output of `recoverSecretFromJSON`: `{secret, subset}` when the winner
is exactly integral, `{secretFraction, subset}` otherwise. -/
inductive SecretResult
  | integer (value : Int) (subset : List Share)
  | rational (frac : Rational) (subset : List Share)
deriving DecidableEq, Repr

/-- `recoverSecretFromJSON` after input decoding (the spec's consensus core):
sort shares by `x`, require at least `k` of them, enumerate all size-`k`
index combinations, interpolate each subset, tally results by normalized
key, pick the first strictly-greatest tally entry, and collapse the winner
to an integer when exact. (`testcase.keys.n` is read but never used by the
source.) -/
def recoverSecret (shares0 : List Share) (k : Nat) : Except RecErr SecretResult :=
  let shares := sortByX shares0
  if shares.length < k then .error .notEnoughShares
  else do
    let indices := List.range shares.length
    let allCombos := chooseCombos indices k
    let cands ← collectCands shares allCombos
    let freq := (buildTally cands).1
    let trace := (buildTally cands).2
    match (selectLeader freq).1 with
    | none => .error .noConsensus
    | some topKey => do
      let secretFrac ← Rational.make topKey.1 topKey.2
      match secretFrac.toIntegerIfExact with
      | some v => .ok (.integer v (lookupTrace trace topKey))
      | none => .ok (.rational secretFrac (lookupTrace trace topKey))

/-! ## Arithmetic foundations: the Euclidean loop, normal form, and values -/

theorem euclidFuel_eq_gcd : ∀ (fuel a b : Nat), b < fuel →
    euclidFuel fuel a b = Nat.gcd a b
  | 0, _, _, h => absurd h (Nat.not_lt_zero _)
  | fuel + 1, a, b, h => by
    by_cases hb : b = 0
    · subst hb; simp [euclidFuel]
    · have hblt : a % b < b := Nat.mod_lt _ (Nat.pos_of_ne_zero hb)
      have hrec := euclidFuel_eq_gcd fuel b (a % b)
        (Nat.lt_of_lt_of_le hblt (Nat.le_of_lt_succ h))
      simp only [euclidFuel, if_neg hb, hrec]
      rw [Nat.gcd_comm b (a % b), ← Nat.gcd_rec b a, Nat.gcd_comm b a]

theorem gcdBigInt_eq (a b : Int) : gcdBigInt a b = (Int.gcd a b : Int) := by
  unfold gcdBigInt
  rw [euclidFuel_eq_gcd _ _ _ (Nat.lt_succ_self _)]
  rfl

theorem bigGcd_eq_gcdBigInt (a b : Int) : bigGcd a b = gcdBigInt a b := rfl

/-- The spec's `ExactRational` normal-form invariant: positive denominator
and coprime components. -/
def Rational.Inv (r : Rational) : Prop :=
  0 < r.den ∧ Int.gcd r.num r.den = 1

instance (r : Rational) : Decidable r.Inv := by
  unfold Rational.Inv; infer_instance

/-- The mathematical value of a `Rational`. -/
def Rational.toQ (r : Rational) : ℚ := (r.num : ℚ) / (r.den : ℚ)

theorem Rational.normalize_neg_neg (n d : Int) (hd : d < 0) :
    Rational.normalize n d = Rational.normalize (-n) (-d) := by
  have hnd : ¬(-d < 0) := by omega
  simp only [Rational.normalize, if_pos hd, if_neg hnd]

theorem gcd_cast_pos {n d : Int} (hd : d ≠ 0) : (0 : Int) < (Int.gcd n d : Int) := by
  have : Int.gcd n d ≠ 0 := by simp [Int.gcd_eq_zero_iff, hd]
  exact_mod_cast Nat.pos_of_ne_zero this

theorem int_ediv_pos_of_dvd {d g : Int} (hd : 0 < d) (hg : 0 < g) (hdvd : g ∣ d) :
    0 < d / g := by
  obtain ⟨c, rfl⟩ := hdvd
  rw [Int.mul_ediv_cancel_left _ (by omega)]
  nlinarith

theorem int_cast_ediv_q {n g : Int} (h : g ∣ n) (hg : g ≠ 0) :
    ((n / g : Int) : ℚ) = (n : ℚ) / (g : ℚ) := by
  obtain ⟨c, rfl⟩ := h
  rw [Int.mul_ediv_cancel_left _ hg]
  have hgq : (g : ℚ) ≠ 0 := by exact_mod_cast hg
  push_cast
  field_simp

theorem Rational.normalize_pos_spec (n d : Int) (hd : 0 < d) :
    (Rational.normalize n d).num = n / (Int.gcd n d : Int) ∧
    (Rational.normalize n d).den = d / (Int.gcd n d : Int) := by
  have hnd : ¬(d < 0) := by omega
  constructor
  · simp only [Rational.normalize, if_neg hnd, gcdBigInt_eq]
    exact Int.tdiv_eq_ediv_of_dvd (Int.gcd_dvd_left)
  · simp only [Rational.normalize, if_neg hnd, gcdBigInt_eq]
    exact Int.tdiv_eq_ediv_of_dvd (Int.gcd_dvd_right)

theorem Rational.normalize_inv_pos (n d : Int) (hd : 0 < d) :
    (Rational.normalize n d).Inv := by
  obtain ⟨hnum, hden⟩ := Rational.normalize_pos_spec n d hd
  have hg : (0 : Int) < (Int.gcd n d : Int) := gcd_cast_pos (by omega)
  constructor
  · rw [hden]
    exact int_ediv_pos_of_dvd hd hg Int.gcd_dvd_right
  · rw [hnum, hden]
    have hgn : 0 < Int.gcd n d := by exact_mod_cast hg
    exact Int.gcd_div_gcd_div_gcd hgn

theorem Rational.normalize_toQ_pos (n d : Int) (hd : 0 < d) :
    (Rational.normalize n d).toQ = (n : ℚ) / (d : ℚ) := by
  obtain ⟨hnum, hden⟩ := Rational.normalize_pos_spec n d hd
  have hg : (0 : Int) < (Int.gcd n d : Int) := gcd_cast_pos (by omega)
  have hgne : (Int.gcd n d : Int) ≠ 0 := by omega
  have hgq : ((Int.gcd n d : Int) : ℚ) ≠ 0 := by exact_mod_cast hgne
  have hdq : (d : ℚ) ≠ 0 := by exact_mod_cast (by omega : d ≠ 0)
  have hdg : ((d / (Int.gcd n d : Int) : Int) : ℚ) ≠ 0 := by
    have := int_ediv_pos_of_dvd hd hg Int.gcd_dvd_right
    exact_mod_cast (by omega : (d / (Int.gcd n d : Int) : Int) ≠ 0)
  unfold Rational.toQ
  rw [hnum, hden, int_cast_ediv_q Int.gcd_dvd_left hgne,
    int_cast_ediv_q Int.gcd_dvd_right hgne]
  field_simp
  rw [mul_assoc]
  exact mul_div_cancel_right₀ _ (mul_ne_zero hgq hdq)

theorem Rational.normalize_inv (n d : Int) (hd : d ≠ 0) :
    (Rational.normalize n d).Inv := by
  rcases lt_or_gt_of_ne hd with h | h
  · rw [Rational.normalize_neg_neg n d h]
    exact Rational.normalize_inv_pos _ _ (by omega)
  · exact Rational.normalize_inv_pos _ _ h

theorem Rational.normalize_toQ (n d : Int) (hd : d ≠ 0) :
    (Rational.normalize n d).toQ = (n : ℚ) / (d : ℚ) := by
  rcases lt_or_gt_of_ne hd with h | h
  · rw [Rational.normalize_neg_neg n d h, Rational.normalize_toQ_pos _ _ (by omega : (0:Int) < -d)]
    push_cast
    rw [neg_div_neg_eq]
  · exact Rational.normalize_toQ_pos _ _ h

/-- Uniqueness of the reduced form: two coprime pairs with positive
denominators representing the same fraction are identical. -/
theorem reduced_unique {n d n' d' : Int} (hd : 0 < d) (hd' : 0 < d')
    (h : Int.gcd n d = 1) (h' : Int.gcd n' d' = 1) (cross : n * d' = n' * d) :
    n = n' ∧ d = d' := by
  have hcop : IsCoprime n d := Int.gcd_eq_one_iff_coprime.mp h
  have hcop' : IsCoprime n' d' := Int.gcd_eq_one_iff_coprime.mp h'
  have hdd' : d ∣ d' := by
    refine hcop.symm.dvd_of_dvd_mul_left ⟨n', ?_⟩
    rw [cross, mul_comm]
  have hd'd : d' ∣ d := by
    refine hcop'.symm.dvd_of_dvd_mul_left ⟨n, ?_⟩
    rw [← cross, mul_comm]
  have hdeq : d = d' := Int.dvd_antisymm (le_of_lt hd) (le_of_lt hd') hdd' hd'd
  subst hdeq
  exact ⟨mul_right_cancel₀ (by omega) cross, rfl⟩

theorem Rational.Inv.denQ_ne {r : Rational} (h : r.Inv) : (r.den : ℚ) ≠ 0 := by
  have := h.1
  exact_mod_cast (by omega : r.den ≠ 0)

/-- Canonicity: normal-form rationals with the same mathematical value are
structurally equal. -/
theorem Rational.inv_toQ_inj {r s : Rational} (hr : r.Inv) (hs : s.Inv)
    (h : r.toQ = s.toQ) : r = s := by
  have cross : r.num * s.den = s.num * r.den := by
    have h2 := h
    unfold Rational.toQ at h2
    rw [div_eq_div_iff hr.denQ_ne hs.denQ_ne] at h2
    exact_mod_cast h2
  obtain ⟨hn, hd⟩ := reduced_unique hr.1 hs.1 hr.2 hs.2 cross
  cases r
  cases s
  simp_all

theorem Rational.make_ok {n d : Int} (hd : d ≠ 0) :
    Rational.make n d = .ok (Rational.normalize n d) := by
  simp [Rational.make, hd]

theorem Rational.normalize_den_one (n : Int) :
    Rational.normalize n 1 = ⟨n, 1⟩ := by
  simp [Rational.normalize, gcdBigInt_eq, Int.gcd_one, Int.tdiv_one]

theorem Rational.fromBigInt_eq (b : Int) : Rational.fromBigInt b = ⟨b, 1⟩ :=
  Rational.normalize_den_one b

theorem Rational.zero_eq : Rational.zero = ⟨0, 1⟩ := Rational.normalize_den_one 0

theorem Rational.int_inv (b : Int) : (Rational.mk b 1).Inv :=
  ⟨one_pos, Int.gcd_one⟩

theorem Rational.int_toQ (b : Int) : (Rational.mk b 1).toQ = (b : ℚ) := by
  unfold Rational.toQ
  simp

theorem Rational.add_spec {a b : Rational} (ha : a.Inv) (hb : b.Inv) :
    ∃ r, a.add b = .ok r ∧ r.Inv ∧ r.toQ = a.toQ + b.toQ := by
  have hden : a.den * b.den ≠ 0 := ne_of_gt (mul_pos ha.1 hb.1)
  refine ⟨_, Rational.make_ok hden, Rational.normalize_inv _ _ hden, ?_⟩
  rw [Rational.normalize_toQ _ _ hden]
  unfold Rational.toQ
  have h1 := ha.denQ_ne
  have h2 := hb.denQ_ne
  push_cast
  field_simp <;> ring

theorem Rational.sub_spec {a b : Rational} (ha : a.Inv) (hb : b.Inv) :
    ∃ r, a.sub b = .ok r ∧ r.Inv ∧ r.toQ = a.toQ - b.toQ := by
  have hden : a.den * b.den ≠ 0 := ne_of_gt (mul_pos ha.1 hb.1)
  refine ⟨_, Rational.make_ok hden, Rational.normalize_inv _ _ hden, ?_⟩
  rw [Rational.normalize_toQ _ _ hden]
  unfold Rational.toQ
  have h1 := ha.denQ_ne
  have h2 := hb.denQ_ne
  push_cast
  field_simp <;> ring

theorem Rational.mul_spec {a b : Rational} (ha : a.Inv) (hb : b.Inv) :
    ∃ r, a.mul b = .ok r ∧ r.Inv ∧ r.toQ = a.toQ * b.toQ := by
  have hden : a.den * b.den ≠ 0 := ne_of_gt (mul_pos ha.1 hb.1)
  refine ⟨_, Rational.make_ok hden, Rational.normalize_inv _ _ hden, ?_⟩
  rw [Rational.normalize_toQ _ _ hden]
  unfold Rational.toQ
  have h1 := ha.denQ_ne
  have h2 := hb.denQ_ne
  push_cast
  field_simp

theorem Rational.div_spec {a b : Rational} (ha : a.Inv) (hb : b.Inv)
    (hnz : b.num ≠ 0) :
    ∃ r, a.div b = .ok r ∧ r.Inv ∧ r.toQ = a.toQ / b.toQ := by
  have hden : a.den * b.num ≠ 0 := mul_ne_zero (by have := ha.1; omega) hnz
  refine ⟨Rational.normalize (a.num * b.den) (a.den * b.num), ?_,
    Rational.normalize_inv _ _ hden, ?_⟩
  · simp only [Rational.div, if_neg hnz]
    exact Rational.make_ok hden
  · rw [Rational.normalize_toQ _ _ hden]
    unfold Rational.toQ
    have h1 := ha.denQ_ne
    have h2 := hb.denQ_ne
    have h3 : (b.num : ℚ) ≠ 0 := by exact_mod_cast hnz
    push_cast
    field_simp <;> ring

theorem Rational.neg_spec {a : Rational} (ha : a.Inv) :
    ∃ r, a.neg = .ok r ∧ r.Inv ∧ r.toQ = -a.toQ := by
  have hden : a.den ≠ 0 := by have := ha.1; omega
  refine ⟨_, Rational.make_ok hden, Rational.normalize_inv _ _ hden, ?_⟩
  rw [Rational.normalize_toQ _ _ hden]
  unfold Rational.toQ
  push_cast
  rw [neg_div]

/-! ## Value semantics of the interpolation loops -/

theorem except_bind_ok {α β : Type} (a : α) (f : α → Except RecErr β) :
    (Except.ok a >>= f) = f a := rfl

/-- Mathematical value of the inner basis loop: the product, over the
remaining positions `j, j+1, ...` distinct from `i`, of
`(-x_j) / (xPos - x_j)`. -/
def qBasis (xPos : Int) (i : Nat) : Nat → List Share → ℚ
  | _, [] => 1
  | j, s :: rest =>
    (if j = i then 1 else (-(s.x : ℚ)) / ((xPos : ℚ) - (s.x : ℚ))) *
      qBasis xPos i (j + 1) rest

/-- Mathematical value of the outer loop: the Lagrange sum at `x = 0`. -/
def qInterp (pts : List Share) : Nat → List Share → ℚ
  | _, [] => 0
  | i, s :: rest => (s.y : ℚ) * qBasis s.x i 0 pts + qInterp pts (i + 1) rest

/-- The exact value the engine is meant to compute on `pts`. -/
def qLagrange (pts : List Share) : ℚ := qInterp pts 0 pts

theorem basisLoop_spec (xPos : Int) (i : Nat) :
    ∀ (l : List Share) (j : Nat) (acc : Rational), acc.Inv →
    (∀ (t : Nat) (ht : t < l.length), j + t ≠ i → xPos ≠ (l.get ⟨t, ht⟩).x) →
    ∃ r, basisLoop xPos i j l acc = .ok r ∧ r.Inv ∧
      r.toQ = acc.toQ * qBasis xPos i j l
  | [], _, acc, hacc, _ => ⟨acc, rfl, hacc, by simp [qBasis]⟩
  | s :: rest, j, acc, hacc, h => by
    have h' : ∀ (t : Nat) (ht : t < rest.length), (j + 1) + t ≠ i →
        xPos ≠ (rest.get ⟨t, ht⟩).x := by
      intro t ht hti
      have := h (t + 1) (by simpa using Nat.succ_lt_succ ht) (by omega)
      simpa using this
    by_cases hj : j = i
    · obtain ⟨r, hr_eq, hr_inv, hr_val⟩ := basisLoop_spec xPos i rest (j + 1) acc hacc h'
      refine ⟨r, ?_, hr_inv, ?_⟩
      · simp only [basisLoop, if_pos hj]
        exact hr_eq
      · rw [hr_val]
        simp [qBasis, hj]
    · have hne : xPos ≠ s.x := h 0 (by simp) (by omega)
      have hsub : xPos - s.x ≠ 0 := sub_ne_zero.mpr hne
      obtain ⟨q, hq_eq, hq_inv, hq_val⟩ :=
        Rational.div_spec (Rational.int_inv (-s.x)) (Rational.int_inv (xPos - s.x))
          (by simpa using hsub)
      obtain ⟨acc', ha_eq, ha_inv, ha_val⟩ := Rational.mul_spec hacc hq_inv
      obtain ⟨r, hr_eq, hr_inv, hr_val⟩ :=
        basisLoop_spec xPos i rest (j + 1) acc' ha_inv h'
      refine ⟨r, ?_, hr_inv, ?_⟩
      · simp only [basisLoop, if_neg hj]
        rw [Rational.make_ok one_ne_zero, except_bind_ok,
          Rational.make_ok one_ne_zero, except_bind_ok,
          Rational.normalize_den_one, Rational.normalize_den_one,
          hq_eq, except_bind_ok, ha_eq, except_bind_ok]
        exact hr_eq
      · rw [hr_val, ha_val, hq_val, Rational.int_toQ, Rational.int_toQ]
        simp only [qBasis, if_neg hj]
        push_cast
        ring

theorem sumLoop_spec (pts : List Share)
    (hdist : pts.Pairwise (fun a b => a.x ≠ b.x)) :
    ∀ (l : List Share) (i : Nat) (total : Rational), total.Inv →
    ∀ (hlen : i + l.length = pts.length),
    (∀ (t : Nat) (ht : t < l.length),
      l.get ⟨t, ht⟩ = pts.get ⟨i + t, by omega⟩) →
    ∃ r, sumLoop pts i l total = .ok r ∧ r.Inv ∧
      r.toQ = total.toQ + qInterp pts i l
  | [], _, total, htot, _, _ => ⟨total, rfl, htot, by simp [qInterp]⟩
  | s :: rest, i, total, htot, hlen, hget => by
    have hil : i < pts.length := by
      simp only [List.length_cons] at hlen
      omega
    have hs : s = pts.get ⟨i, hil⟩ := by
      have := hget 0 (by simp)
      simpa using this
    have hinner : ∀ (t : Nat) (ht : t < pts.length), 0 + t ≠ i →
        s.x ≠ (pts.get ⟨t, ht⟩).x := by
      intro t ht hti
      rw [List.pairwise_iff_get] at hdist
      rcases Nat.lt_or_ge i t with hlt | hge
      · have := hdist ⟨i, hil⟩ ⟨t, ht⟩ hlt
        rw [hs]
        exact this
      · have hti' : t < i := by omega
        have := hdist ⟨t, ht⟩ ⟨i, hil⟩ hti'
        rw [hs]
        exact fun hx => this hx.symm
    obtain ⟨basis, hb_eq, hb_inv, hb_val⟩ :=
      basisLoop_spec s.x i pts 0 (Rational.fromBigInt 1)
        (Rational.fromBigInt_eq 1 ▸ Rational.int_inv 1) hinner
    obtain ⟨term, ht_eq, ht_inv, ht_val⟩ :=
      Rational.mul_spec (Rational.fromBigInt_eq s.y ▸ Rational.int_inv s.y) hb_inv
    obtain ⟨total', hto_eq, hto_inv, hto_val⟩ := Rational.add_spec htot ht_inv
    have hget' : ∀ (t : Nat) (ht : t < rest.length),
        rest.get ⟨t, ht⟩ = pts.get ⟨(i + 1) + t, by
          simp only [List.length_cons] at hlen; omega⟩ := by
      intro t ht
      have h2 := hget (t + 1) (by simpa using Nat.succ_lt_succ ht)
      have h3 : i + (t + 1) = (i + 1) + t := by omega
      simpa [h3] using h2
    obtain ⟨r, hr_eq, hr_inv, hr_val⟩ :=
      sumLoop_spec pts hdist rest (i + 1) total' hto_inv
        (by simp only [List.length_cons] at hlen; omega) hget'
    refine ⟨r, ?_, hr_inv, ?_⟩
    · simp only [sumLoop]
      rw [hb_eq, except_bind_ok, ht_eq, except_bind_ok, hto_eq, except_bind_ok]
      exact hr_eq
    · rw [hr_val, hto_val, ht_val, hb_val]
      have h1 : (Rational.fromBigInt 1).toQ = 1 := by
        rw [Rational.fromBigInt_eq, Rational.int_toQ]
        norm_num
      have hy : (Rational.fromBigInt s.y).toQ = (s.y : ℚ) := by
        rw [Rational.fromBigInt_eq, Rational.int_toQ]
      rw [h1, hy]
      simp only [qInterp]
      ring

/-- Success and value of the interpolation engine on pairwise-distinct
`x`-coordinates. -/
theorem reconstructAtOrigin_spec (pts : List Share)
    (hdist : pts.Pairwise (fun a b => a.x ≠ b.x)) :
    ∃ r, reconstructAtOrigin pts = .ok r ∧ r.Inv ∧ r.toQ = qLagrange pts := by
  obtain ⟨r, hr_eq, hr_inv, hr_val⟩ :=
    sumLoop_spec pts hdist pts 0 Rational.zero
      (Rational.zero_eq ▸ Rational.int_inv 0) (by simp)
      (by intro t ht; simp)
  refine ⟨r, hr_eq, hr_inv, ?_⟩
  rw [hr_val]
  have h0 : Rational.zero.toQ = 0 := by
    rw [Rational.zero_eq, Rational.int_toQ]
    norm_num
  rw [h0, qLagrange]
  ring

/-! ## The first program's `Fraction` engine -/

/-- Normal-form invariant for `Fraction` (same as `Rational`'s). -/
def Fraction.Inv (f : Fraction) : Prop := 0 < f.d ∧ Int.gcd f.n f.d = 1

/-- Mathematical value of a `Fraction`. -/
def Fraction.toQ (f : Fraction) : ℚ := (f.n : ℚ) / (f.d : ℚ)

/-- `Fraction.normalize` and `Rational.normalize` are the same computation
(the two classes have textually identical constructors and gcds). -/
theorem Fraction.normalize_eq_rational (n d : Int) :
    Fraction.normalize n d =
      ⟨(Rational.normalize n d).num, (Rational.normalize n d).den⟩ := rfl

theorem Fraction.normalizeF_inv (n d : Int) (hd : d ≠ 0) :
    (Fraction.normalize n d).Inv := by
  rw [Fraction.normalize_eq_rational]
  obtain ⟨h1, h2⟩ := Rational.normalize_inv n d hd
  exact ⟨h1, h2⟩

theorem Fraction.normalizeF_toQ (n d : Int) (hd : d ≠ 0) :
    (Fraction.normalize n d).toQ = (n : ℚ) / (d : ℚ) := by
  rw [Fraction.normalize_eq_rational]
  exact Rational.normalize_toQ n d hd

theorem Fraction.makeF_ok {n d : Int} (hd : d ≠ 0) :
    Fraction.make n d = .ok (Fraction.normalize n d) := by
  simp [Fraction.make, hd]

theorem Fraction.make_spec {n d : Int} (hd : d ≠ 0) :
    ∃ f, Fraction.make n d = .ok f ∧ f.Inv ∧ f.toQ = (n : ℚ) / (d : ℚ) :=
  ⟨_, Fraction.makeF_ok hd, Fraction.normalizeF_inv n d hd, Fraction.normalizeF_toQ n d hd⟩

theorem Fraction.intF_inv (b : Int) : (Fraction.mk b 1).Inv :=
  ⟨one_pos, Int.gcd_one⟩

theorem Fraction.intF_toQ (b : Int) : (Fraction.mk b 1).toQ = (b : ℚ) := by
  unfold Fraction.toQ
  simp

theorem Fraction.normalizeF_den_one (n : Int) :
    Fraction.normalize n 1 = ⟨n, 1⟩ := by
  rw [Fraction.normalize_eq_rational, Rational.normalize_den_one]

theorem Fraction.fromBigIntF_eq (b : Int) : Fraction.fromBigInt b = ⟨b, 1⟩ :=
  Fraction.normalizeF_den_one b

theorem Fraction.Inv.denQF_ne {f : Fraction} (h : f.Inv) : (f.d : ℚ) ≠ 0 := by
  have := h.1
  exact_mod_cast (by omega : f.d ≠ 0)

theorem Fraction.addF_spec {a b : Fraction} (ha : a.Inv) (hb : b.Inv) :
    ∃ r, a.add b = .ok r ∧ r.Inv ∧ r.toQ = a.toQ + b.toQ := by
  have hden : a.d * b.d ≠ 0 := ne_of_gt (mul_pos ha.1 hb.1)
  refine ⟨_, Fraction.makeF_ok hden, Fraction.normalizeF_inv _ _ hden, ?_⟩
  rw [Fraction.normalizeF_toQ _ _ hden]
  unfold Fraction.toQ
  have h1 := ha.denQF_ne
  have h2 := hb.denQF_ne
  push_cast
  field_simp <;> ring

theorem Fraction.mulF_spec {a b : Fraction} (ha : a.Inv) (hb : b.Inv) :
    ∃ r, a.mul b = .ok r ∧ r.Inv ∧ r.toQ = a.toQ * b.toQ := by
  have hden : a.d * b.d ≠ 0 := ne_of_gt (mul_pos ha.1 hb.1)
  refine ⟨_, Fraction.makeF_ok hden, Fraction.normalizeF_inv _ _ hden, ?_⟩
  rw [Fraction.normalizeF_toQ _ _ hden]
  unfold Fraction.toQ
  have h1 := ha.denQF_ne
  have h2 := hb.denQF_ne
  push_cast
  field_simp <;> ring

theorem fracBasisLoop_spec (xi : Int) (i : Nat) :
    ∀ (l : List Share) (j : Nat) (acc : Fraction), acc.Inv →
    (∀ (t : Nat) (ht : t < l.length), j + t ≠ i → xi ≠ (l.get ⟨t, ht⟩).x) →
    ∃ r, fracBasisLoop xi i j l acc = .ok r ∧ r.Inv ∧
      r.toQ = acc.toQ * qBasis xi i j l
  | [], _, acc, hacc, _ => ⟨acc, rfl, hacc, by simp [qBasis]⟩
  | p :: rest, j, acc, hacc, h => by
    have h' : ∀ (t : Nat) (ht : t < rest.length), (j + 1) + t ≠ i →
        xi ≠ (rest.get ⟨t, ht⟩).x := by
      intro t ht hti
      have := h (t + 1) (by simpa using Nat.succ_lt_succ ht) (by omega)
      simpa using this
    by_cases hj : j = i
    · obtain ⟨r, hr_eq, hr_inv, hr_val⟩ := fracBasisLoop_spec xi i rest (j + 1) acc hacc h'
      refine ⟨r, ?_, hr_inv, ?_⟩
      · simp only [fracBasisLoop, if_pos hj]
        exact hr_eq
      · rw [hr_val]
        simp [qBasis, hj]
    · have hne : xi ≠ p.x := h 0 (by simp) (by omega)
      have hsub : xi - p.x ≠ 0 := sub_ne_zero.mpr hne
      obtain ⟨f, hf_eq, hf_inv, hf_val⟩ := Fraction.make_spec (n := -p.x) hsub
      obtain ⟨acc', ha_eq, ha_inv, ha_val⟩ := Fraction.mulF_spec hacc hf_inv
      obtain ⟨r, hr_eq, hr_inv, hr_val⟩ :=
        fracBasisLoop_spec xi i rest (j + 1) acc' ha_inv h'
      refine ⟨r, ?_, hr_inv, ?_⟩
      · simp only [fracBasisLoop, if_neg hj]
        rw [hf_eq, except_bind_ok, ha_eq, except_bind_ok]
        exact hr_eq
      · rw [hr_val, ha_val, hf_val]
        simp only [qBasis, if_neg hj]
        push_cast
        ring

theorem fracSumLoop_spec (pts : List Share)
    (hdist : pts.Pairwise (fun a b => a.x ≠ b.x)) :
    ∀ (l : List Share) (i : Nat) (res : Fraction), res.Inv →
    ∀ (hlen : i + l.length = pts.length),
    (∀ (t : Nat) (ht : t < l.length),
      l.get ⟨t, ht⟩ = pts.get ⟨i + t, by omega⟩) →
    ∃ r, fracSumLoop pts i l res = .ok r ∧ r.Inv ∧
      r.toQ = res.toQ + qInterp pts i l
  | [], _, res, hres, _, _ => ⟨res, rfl, hres, by simp [qInterp]⟩
  | p :: rest, i, res, hres, hlen, hget => by
    have hil : i < pts.length := by
      simp only [List.length_cons] at hlen
      omega
    have hs : p = pts.get ⟨i, hil⟩ := by
      have := hget 0 (by simp)
      simpa using this
    have hinner : ∀ (t : Nat) (ht : t < pts.length), 0 + t ≠ i →
        p.x ≠ (pts.get ⟨t, ht⟩).x := by
      intro t ht hti
      rw [List.pairwise_iff_get] at hdist
      rcases Nat.lt_or_ge i t with hlt | hge
      · have := hdist ⟨i, hil⟩ ⟨t, ht⟩ hlt
        rw [hs]
        exact this
      · have hti' : t < i := by omega
        have := hdist ⟨t, ht⟩ ⟨i, hil⟩ hti'
        rw [hs]
        exact fun hx => this hx.symm
    obtain ⟨li, hb_eq, hb_inv, hb_val⟩ :=
      fracBasisLoop_spec p.x i pts 0 (Fraction.normalize 1 1)
        (Fraction.normalizeF_inv 1 1 one_ne_zero) hinner
    obtain ⟨t1, ht_eq, ht_inv, ht_val⟩ :=
      Fraction.mulF_spec (Fraction.fromBigIntF_eq p.y ▸ Fraction.intF_inv p.y) hb_inv
    obtain ⟨res', hto_eq, hto_inv, hto_val⟩ := Fraction.addF_spec hres ht_inv
    have hget' : ∀ (t : Nat) (ht : t < rest.length),
        rest.get ⟨t, ht⟩ = pts.get ⟨(i + 1) + t, by
          simp only [List.length_cons] at hlen; omega⟩ := by
      intro t ht
      have h2 := hget (t + 1) (by simpa using Nat.succ_lt_succ ht)
      have h3 : i + (t + 1) = (i + 1) + t := by omega
      simpa [h3] using h2
    obtain ⟨r, hr_eq, hr_inv, hr_val⟩ :=
      fracSumLoop_spec pts hdist rest (i + 1) res' hto_inv
        (by simp only [List.length_cons] at hlen; omega) hget'
    refine ⟨r, ?_, hr_inv, ?_⟩
    · simp only [fracSumLoop]
      rw [hb_eq, except_bind_ok, ht_eq, except_bind_ok, hto_eq, except_bind_ok]
      exact hr_eq
    · rw [hr_val, hto_val, ht_val, hb_val]
      have h1 : (Fraction.normalize 1 1).toQ = 1 := by
        rw [Fraction.normalizeF_toQ 1 1 one_ne_zero]
        norm_num
      have hy : (Fraction.fromBigInt p.y).toQ = (p.y : ℚ) := by
        rw [Fraction.fromBigIntF_eq, Fraction.intF_toQ]
      rw [h1, hy]
      simp only [qInterp]
      ring

/-- Success and value of the first program's engine on pairwise-distinct
`x`-coordinates. -/
theorem lagrangeAtZeroFraction_spec (pts : List Share)
    (hdist : pts.Pairwise (fun a b => a.x ≠ b.x)) :
    ∃ f, lagrangeAtZeroFraction pts = .ok f ∧ f.Inv ∧ f.toQ = qLagrange pts := by
  obtain ⟨f, hf_eq, hf_inv, hf_val⟩ :=
    fracSumLoop_spec pts hdist pts 0 (Fraction.normalize 0 1)
      (Fraction.normalizeF_inv 0 1 one_ne_zero) (by simp)
      (by intro t ht; simp)
  refine ⟨f, hf_eq, hf_inv, ?_⟩
  rw [hf_val]
  have h0 : (Fraction.normalize 0 1).toQ = 0 := by
    rw [Fraction.normalizeF_toQ 0 1 one_ne_zero]
    norm_num
  rw [h0, qLagrange]
  ring

/-- A normal-form `Fraction` and a normal-form `Rational` with the same
value have identical components. -/
theorem frac_rat_components {f : Fraction} {r : Rational} (hf : f.Inv)
    (hr : r.Inv) (h : f.toQ = r.toQ) : f.n = r.num ∧ f.d = r.den := by
  have cross : f.n * r.den = r.num * f.d := by
    have h2 := h
    unfold Fraction.toQ Rational.toQ at h2
    rw [div_eq_div_iff hf.denQF_ne hr.denQ_ne] at h2
    exact_mod_cast h2
  exact reduced_unique hf.1 hr.1 hf.2 hr.2 cross

/-! ## Interpolation exactness via Lagrange interpolation -/

/-- Integer polynomial given by its coefficient list (constant term first),
evaluated by Horner's rule; a "polynomial of degree < k with integer
coefficients" is a `coeffs` with `coeffs.length ≤ k`. -/
def evalPoly (coeffs : List Int) (x : Int) : Int :=
  coeffs.foldr (fun c acc => c + x * acc) 0

/-- The same polynomial as a `Polynomial ℚ` (proof-side object only; the
program never builds polynomials). -/
noncomputable def toPolyQ : List Int → Polynomial ℚ
  | [] => 0
  | c :: t => Polynomial.C (c : ℚ) + Polynomial.X * toPolyQ t

theorem toPolyQ_degree_lt : ∀ l : List Int,
    (toPolyQ l).degree < ((l.length : ℕ) : WithBot ℕ)
  | [] => by
    simp [toPolyQ]
  | c :: t => by
    have ih := toPolyQ_degree_lt t
    have h1 : (Polynomial.C (c : ℚ)).degree < ((t.length + 1 : ℕ) : WithBot ℕ) :=
      lt_of_le_of_lt Polynomial.degree_C_le (by exact_mod_cast WithBot.coe_lt_coe.mpr (Nat.succ_pos _))
    have h2 : (Polynomial.X * toPolyQ t : Polynomial ℚ).degree <
        ((t.length + 1 : ℕ) : WithBot ℕ) := by
      rw [Polynomial.degree_mul, Polynomial.degree_X]
      have : ((t.length + 1 : ℕ) : WithBot ℕ) = 1 + ((t.length : ℕ) : WithBot ℕ) := by
        push_cast
        ring
      rw [this]
      exact WithBot.add_lt_add_left (by simp) ih
    calc (toPolyQ (c :: t)).degree
        ≤ max (Polynomial.C (c : ℚ)).degree (Polynomial.X * toPolyQ t).degree :=
          Polynomial.degree_add_le _ _
      _ < ((t.length + 1 : ℕ) : WithBot ℕ) := max_lt h1 h2

theorem toPolyQ_eval (l : List Int) (x : Int) :
    (toPolyQ l).eval (x : ℚ) = ((evalPoly l x : Int) : ℚ) := by
  induction l with
  | nil => simp [toPolyQ, evalPoly]
  | cons c t ih =>
    simp only [toPolyQ, Polynomial.eval_add, Polynomial.eval_C, Polynomial.eval_mul,
      Polynomial.eval_X, ih, evalPoly, List.foldr_cons]
    push_cast
    ring

theorem qBasis_eq_prod (xPos : Int) (i : Nat) :
    ∀ (l : List Share) (j : Nat),
    qBasis xPos i j l = ∏ t ∈ Finset.range l.length,
      (if j + t = i then 1
       else (-(((l.getD t default).x : Int) : ℚ)) /
         ((xPos : ℚ) - (((l.getD t default).x : Int) : ℚ)))
  | [], _ => by simp [qBasis]
  | s :: rest, j => by
    rw [List.length_cons, Finset.prod_range_succ']
    simp only [List.getD_cons_succ, List.getD_cons_zero]
    rw [qBasis, qBasis_eq_prod xPos i rest (j + 1)]
    have : ∀ t ∈ Finset.range rest.length,
        (if j + (t + 1) = i then (1 : ℚ)
         else (-(((rest.getD t default).x : Int) : ℚ)) /
           ((xPos : ℚ) - (((rest.getD t default).x : Int) : ℚ))) =
        (if (j + 1) + t = i then 1
         else (-(((rest.getD t default).x : Int) : ℚ)) /
           ((xPos : ℚ) - (((rest.getD t default).x : Int) : ℚ))) := by
      intro t _
      have h3 : (j + (t + 1) = i) ↔ ((j + 1) + t = i) := by omega
      exact if_congr h3 rfl rfl
    rw [Finset.prod_congr rfl this]
    simp only [Nat.add_zero]
    ring

theorem qInterp_eq_sum (pts : List Share) :
    ∀ (l : List Share) (i : Nat),
    qInterp pts i l = ∑ t ∈ Finset.range l.length,
      (((l.getD t default).y : Int) : ℚ) *
        qBasis (l.getD t default).x (i + t) 0 pts
  | [], _ => by simp [qInterp]
  | s :: rest, i => by
    rw [List.length_cons, Finset.sum_range_succ']
    simp only [List.getD_cons_succ, List.getD_cons_zero]
    rw [qInterp, qInterp_eq_sum pts rest (i + 1)]
    have : ∀ t ∈ Finset.range rest.length,
        (((rest.getD t default).y : Int) : ℚ) *
          qBasis (rest.getD t default).x (i + (t + 1)) 0 pts =
        (((rest.getD t default).y : Int) : ℚ) *
          qBasis (rest.getD t default).x ((i + 1) + t) 0 pts := by
      intro t _
      have h3 : i + (t + 1) = (i + 1) + t := by omega
      rw [h3]
    rw [Finset.sum_congr rfl this]
    simp only [Nat.add_zero]
    ring

/-- Node map of a point list, as rationals. -/
def vOf (pts : List Share) (t : Nat) : ℚ := ((pts.getD t default).x : ℚ)

/-- Value map of a point list, as rationals. -/
def rOf (pts : List Share) (t : Nat) : ℚ := ((pts.getD t default).y : ℚ)

theorem qLagrange_eq_eval_interpolate (pts : List Share) :
    qLagrange pts = Polynomial.eval 0
      (Lagrange.interpolate (Finset.range pts.length) (vOf pts) (rOf pts)) := by
  rw [qLagrange, qInterp_eq_sum pts pts 0, Lagrange.interpolate_apply,
    Polynomial.eval_finset_sum]
  apply Finset.sum_congr rfl
  intro t ht
  rw [Polynomial.eval_mul, Polynomial.eval_C]
  unfold rOf
  congr 1
  rw [qBasis_eq_prod]
  unfold Lagrange.basis
  rw [Polynomial.eval_prod, ← Finset.mul_prod_erase _ _ ht, if_pos rfl, one_mul]
  apply Finset.prod_congr rfl
  intro u hu
  have hut : u ≠ t := (Finset.mem_erase.mp hu).1
  rw [if_neg (by omega : ¬(0 + u = 0 + t))]
  unfold Lagrange.basisDivisor
  rw [Polynomial.eval_mul, Polynomial.eval_C, Polynomial.eval_sub,
    Polynomial.eval_X, Polynomial.eval_C]
  unfold vOf
  rw [div_eq_mul_inv]
  ring

theorem distinct_x_injOn (pts : List Share)
    (hdist : pts.Pairwise (fun a b => a.x ≠ b.x)) :
    Set.InjOn (vOf pts) (Finset.range pts.length) := by
  intro t ht u hu hv
  simp only [Finset.coe_range, Set.mem_Iio] at ht hu
  by_contra hne
  have hx : (pts.getD t default).x ≠ (pts.getD u default).x := by
    rw [List.pairwise_iff_get] at hdist
    rcases Nat.lt_or_ge t u with hlt | hge
    · have := hdist ⟨t, ht⟩ ⟨u, hu⟩ hlt
      rw [List.getD_eq_get pts default ht, List.getD_eq_get pts default hu]
      exact this
    · have hlt' : u < t := by omega
      have := hdist ⟨u, hu⟩ ⟨t, ht⟩ hlt'
      rw [List.getD_eq_get pts default ht, List.getD_eq_get pts default hu]
      exact fun hh => this hh.symm
  apply hx
  unfold vOf at hv
  exact_mod_cast hv

/-- C2: interpolation exactness. For every list of points with
pairwise-distinct `x`-coordinates that lie on an integer-coefficient
polynomial of degree less than the number of points (coefficient list
`coeffs` with `coeffs.length ≤ pts.length`), `reconstructAtOrigin` returns
exactly that polynomial's value at `x = 0`, as the canonical rational
`⟨evalPoly coeffs 0, 1⟩`, for any magnitude of the coordinates. -/
theorem interpolation_exact (pts : List Share) (coeffs : List Int)
    (hdist : pts.Pairwise (fun a b => a.x ≠ b.x))
    (hdeg : coeffs.length ≤ pts.length)
    (hon : ∀ s ∈ pts, s.y = evalPoly coeffs s.x) :
    reconstructAtOrigin pts = .ok ⟨evalPoly coeffs 0, 1⟩ := by
  obtain ⟨r, hr_eq, hr_inv, hr_val⟩ := reconstructAtOrigin_spec pts hdist
  have hinj := distinct_x_injOn pts hdist
  have hdegf : (toPolyQ coeffs).degree < (Finset.range pts.length).card := by
    rw [Finset.card_range]
    exact lt_of_lt_of_le (toPolyQ_degree_lt coeffs) (by exact_mod_cast hdeg)
  have hvals : ∀ t ∈ Finset.range pts.length,
      rOf pts t = (toPolyQ coeffs).eval (vOf pts t) := by
    intro t ht
    rw [Finset.mem_range] at ht
    have hmem : pts.getD t default ∈ pts := by
      rw [List.getD_eq_get pts default ht]
      exact List.get_mem pts t ht
    unfold rOf vOf
    rw [toPolyQ_eval, hon _ hmem]
  have hql : qLagrange pts = ((evalPoly coeffs 0 : Int) : ℚ) := by
    rw [qLagrange_eq_eval_interpolate,
      Lagrange.interpolate_eq_of_values_eq_on _ _ hvals,
      ← Lagrange.eq_interpolate hinj hdegf]
    have := toPolyQ_eval coeffs 0
    simpa using this
  have : r = ⟨evalPoly coeffs 0, 1⟩ := by
    apply Rational.inv_toQ_inj hr_inv (Rational.int_inv _)
    rw [hr_val, hql, Rational.int_toQ]
  rw [hr_eq, this]

/-! ## Tally and leader-selection machinery -/

/-- Number of subsets producing result key `k`, in a candidate list. -/
def countKey (l : List ((Int × Int) × List Share)) (k : Int × Int) : Nat :=
  l.countP (fun e => decide (e.1 = k))

/-- Position of the first subset producing result key `k`. -/
def firstIdx (l : List ((Int × Int) × List Share)) (k : Int × Int) : Nat :=
  l.findIdx (fun e => decide (e.1 = k))

/-- The frequency-map component of the tally loop, from an arbitrary start. -/
def freqFold (f0 : List ((Int × Int) × Nat))
    (l : List ((Int × Int) × List Share)) : List ((Int × Int) × Nat) :=
  l.foldl (fun f e => bumpFreq f e.1) f0

/-- The trace-map component of the tally loop, from an arbitrary start. -/
def traceFold (t0 : List ((Int × Int) × List Share))
    (l : List ((Int × Int) × List Share)) : List ((Int × Int) × List Share) :=
  l.foldl (fun tr e => addTrace tr e.1 e.2) t0

/-- The entries the frequency map gains from processing `l`, given the keys
already present: one entry per first occurrence, holding the full count. -/
def tallyNew : List ((Int × Int) × List Share) → List (Int × Int) →
    List ((Int × Int) × Nat)
  | [], _ => []
  | e :: t, seen =>
    if e.1 ∈ seen then tallyNew t seen
    else (e.1, 1 + countKey t e.1) :: tallyNew t (e.1 :: seen)

/-- The entries the trace map gains from processing `l`: each key's first
producer. -/
def traceNew : List ((Int × Int) × List Share) → List (Int × Int) →
    List ((Int × Int) × List Share)
  | [], _ => []
  | e :: t, seen =>
    if e.1 ∈ seen then traceNew t seen
    else e :: traceNew t (e.1 :: seen)

theorem foldl_pair : ∀ (l : List ((Int × Int) × List Share))
    (f0 : List ((Int × Int) × Nat)) (t0 : List ((Int × Int) × List Share)),
    l.foldl (fun acc e => (bumpFreq acc.1 e.1, addTrace acc.2 e.1 e.2)) (f0, t0) =
      (freqFold f0 l, traceFold t0 l)
  | [], _, _ => rfl
  | e :: t, f0, t0 => by
    simp only [List.foldl_cons]
    rw [foldl_pair t (bumpFreq f0 e.1) (addTrace t0 e.1 e.2)]
    rfl

theorem buildTally_eq (l : List ((Int × Int) × List Share)) :
    buildTally l = (freqFold [] l, traceFold [] l) := foldl_pair l [] []

theorem any_key_iff {α : Type} (f0 : List ((Int × Int) × α)) (k : Int × Int) :
    (f0.any (fun e => decide (e.1 = k)) = true) ↔ k ∈ f0.map Prod.fst := by
  rw [List.any_eq_true]
  constructor
  · rintro ⟨e, he, hp⟩
    exact List.mem_map.mpr ⟨e, he, by simpa using hp⟩
  · rintro hk
    obtain ⟨e, he, hk'⟩ := List.mem_map.mp hk
    exact ⟨e, he, by simpa using hk'⟩

theorem tallyNew_congr : ∀ (l : List ((Int × Int) × List Share))
    (seen seen' : List (Int × Int)), (∀ x, x ∈ seen ↔ x ∈ seen') →
    tallyNew l seen = tallyNew l seen'
  | [], _, _, _ => rfl
  | e :: t, seen, seen', h => by
    simp only [tallyNew]
    by_cases hmem : e.1 ∈ seen
    · rw [if_pos hmem, if_pos ((h e.1).mp hmem)]
      exact tallyNew_congr t seen seen' h
    · rw [if_neg hmem, if_neg (fun hc => hmem ((h e.1).mpr hc))]
      rw [tallyNew_congr t (e.1 :: seen) (e.1 :: seen')
        (by intro x; simp [h x])]

theorem traceNew_congr : ∀ (l : List ((Int × Int) × List Share))
    (seen seen' : List (Int × Int)), (∀ x, x ∈ seen ↔ x ∈ seen') →
    traceNew l seen = traceNew l seen'
  | [], _, _, _ => rfl
  | e :: t, seen, seen', h => by
    simp only [traceNew]
    by_cases hmem : e.1 ∈ seen
    · rw [if_pos hmem, if_pos ((h e.1).mp hmem)]
      exact traceNew_congr t seen seen' h
    · rw [if_neg hmem, if_neg (fun hc => hmem ((h e.1).mpr hc))]
      rw [traceNew_congr t (e.1 :: seen) (e.1 :: seen')
        (by intro x; simp [h x])]

theorem countKey_cons (e : (Int × Int) × List Share)
    (t : List ((Int × Int) × List Share)) (k : Int × Int) :
    countKey (e :: t) k = countKey t k + (if e.1 = k then 1 else 0) := by
  simp [countKey, List.countP_cons]

theorem bumpFreq_keys (f0 : List ((Int × Int) × Nat)) (k : Int × Int) :
    k ∈ f0.map Prod.fst →
    bumpFreq f0 k = f0.map (fun en => if en.1 = k then (en.1, en.2 + 1) else en) := by
  intro hk
  rw [bumpFreq, if_pos ((any_key_iff f0 k).mpr hk)]

theorem bumpFreq_new (f0 : List ((Int × Int) × Nat)) (k : Int × Int) :
    k ∉ f0.map Prod.fst → bumpFreq f0 k = f0 ++ [(k, 1)] := by
  intro hk
  rw [bumpFreq, if_neg (fun hc => hk ((any_key_iff f0 k).mp hc))]

theorem freqFold_char : ∀ (l : List ((Int × Int) × List Share))
    (f0 : List ((Int × Int) × Nat)), (f0.map Prod.fst).Nodup →
    freqFold f0 l = f0.map (fun en => (en.1, en.2 + countKey l en.1)) ++
      tallyNew l (f0.map Prod.fst)
  | [], f0, _ => by
    simp [freqFold, tallyNew, countKey]
  | e :: t, f0, hnd => by
    have hstep : freqFold f0 (e :: t) = freqFold (bumpFreq f0 e.1) t := rfl
    by_cases hmem : e.1 ∈ f0.map Prod.fst
    · rw [hstep, bumpFreq_keys f0 e.1 hmem]
      have hkeys : (f0.map (fun en => if en.1 = e.1 then (en.1, en.2 + 1) else en)).map
          Prod.fst = f0.map Prod.fst := by
        rw [List.map_map]
        apply List.map_congr_left
        intro en _
        by_cases h : en.1 = e.1 <;> simp [h]
      rw [freqFold_char t _ (by rw [hkeys]; exact hnd), hkeys]
      have hmap : (f0.map (fun en => if en.1 = e.1 then (en.1, en.2 + 1) else en)).map
          (fun en => (en.1, en.2 + countKey t en.1)) =
          f0.map (fun en => (en.1, en.2 + countKey (e :: t) en.1)) := by
        rw [List.map_map]
        apply List.map_congr_left
        intro en _
        by_cases h : en.1 = e.1
        · simp [h, countKey_cons]
          omega
        · have h2 : ¬(e.1 = en.1) := fun hc => h hc.symm
          simp [h, countKey_cons, h2]
      rw [hmap]
      congr 1
      simp only [tallyNew, if_pos hmem]
    · rw [hstep, bumpFreq_new f0 e.1 hmem]
      have hkeys : ((f0 ++ [(e.1, 1)]).map Prod.fst) = f0.map Prod.fst ++ [e.1] := by
        simp
      have hnd' : (((f0 ++ [(e.1, 1)]).map Prod.fst)).Nodup := by
        rw [hkeys]
        simp only [List.nodup_append]
        exact ⟨hnd, List.nodup_singleton _, by simpa using hmem⟩
      rw [freqFold_char t _ hnd', hkeys]
      simp only [tallyNew, if_neg hmem, List.map_append]
      have hmap : f0.map (fun en => (en.1, en.2 + countKey t en.1)) =
          f0.map (fun en => (en.1, en.2 + countKey (e :: t) en.1)) := by
        apply List.map_congr_left
        intro en hen
        have hne : en.1 ≠ e.1 := by
          intro hc
          exact hmem (hc ▸ List.mem_map_of_mem Prod.fst hen)
        have h2 : ¬(e.1 = en.1) := fun hc => hne hc.symm
        simp [countKey_cons, h2]
      rw [tallyNew_congr t (f0.map Prod.fst ++ [e.1]) (e.1 :: f0.map Prod.fst)
        (by intro x; simp; tauto), hmap]
      simp [List.append_assoc]

theorem traceFold_char : ∀ (l : List ((Int × Int) × List Share))
    (t0 : List ((Int × Int) × List Share)),
    traceFold t0 l = t0 ++ traceNew l (t0.map Prod.fst)
  | [], t0 => by simp [traceFold, traceNew]
  | e :: t, t0 => by
    have hstep : traceFold t0 (e :: t) = traceFold (addTrace t0 e.1 e.2) t := rfl
    by_cases hmem : e.1 ∈ t0.map Prod.fst
    · have haddt : addTrace t0 e.1 e.2 = t0 := by
        rw [addTrace, if_pos ((any_key_iff t0 e.1).mpr hmem)]
      rw [hstep, haddt, traceFold_char t t0]
      congr 1
      simp only [traceNew, if_pos hmem]
    · have haddt : addTrace t0 e.1 e.2 = t0 ++ [e] := by
        rw [addTrace, if_neg (fun hc => hmem ((any_key_iff t0 e.1).mp hc))]
      rw [hstep, haddt, traceFold_char t _]
      simp only [List.map_append, List.map_cons, List.map_nil]
      rw [traceNew_congr t (t0.map Prod.fst ++ [e.1]) (e.1 :: t0.map Prod.fst)
        (by intro x; simp; tauto)]
      simp only [traceNew, if_neg hmem]
      simp [List.append_assoc]

theorem tallyNew_mem : ∀ (l : List ((Int × Int) × List Share))
    (seen : List (Int × Int)) (k : Int × Int) (c : Nat),
    (k, c) ∈ tallyNew l seen → (c = countKey l k ∧ k ∉ seen) ∧ 0 < c
  | [], _, _, _, h => absurd h (by simp [tallyNew])
  | e :: t, seen, k, c, h => by
    by_cases hmem : e.1 ∈ seen
    · simp only [tallyNew, if_pos hmem] at h
      obtain ⟨⟨hc, hs⟩, hpos⟩ := tallyNew_mem t seen k c h
      have hk : ¬(e.1 = k) := fun hkc => hs (hkc ▸ hmem)
      refine ⟨⟨?_, hs⟩, hpos⟩
      rw [countKey_cons, if_neg hk, hc]
      omega
    · simp only [tallyNew, if_neg hmem, List.mem_cons] at h
      rcases h with h | h
      · rw [Prod.mk.injEq] at h
        obtain ⟨hk, hc⟩ := h
        subst hk
        refine ⟨⟨?_, hmem⟩, by omega⟩
        rw [countKey_cons, if_pos rfl]
        omega
      · obtain ⟨⟨hc, hs⟩, hpos⟩ := tallyNew_mem t (e.1 :: seen) k c h
        have hk : ¬(e.1 = k) := by
          intro hc2
          exact hs (by simp [hc2])
        have hs' : k ∉ seen := fun hc2 => hs (by simp [hc2])
        refine ⟨⟨?_, hs'⟩, hpos⟩
        rw [countKey_cons, if_neg hk, hc]
        omega

theorem tallyNew_keys_complete : ∀ (l : List ((Int × Int) × List Share))
    (seen : List (Int × Int)) (k : Int × Int),
    k ∈ l.map Prod.fst → k ∉ seen → k ∈ (tallyNew l seen).map Prod.fst
  | [], _, _, hk, _ => absurd hk (by simp)
  | e :: t, seen, k, hk, hs => by
    rw [List.map_cons, List.mem_cons] at hk
    by_cases hmem : e.1 ∈ seen
    · simp only [tallyNew, if_pos hmem]
      have hk' : k ∈ t.map Prod.fst := by
        rcases hk with h | h
        · exact absurd (h ▸ hmem) hs
        · exact h
      exact tallyNew_keys_complete t seen k hk' hs
    · simp only [tallyNew, if_neg hmem, List.map_cons]
      by_cases hke : k = e.1
      · simp [hke]
      · have hk' : k ∈ t.map Prod.fst := by
          rcases hk with h | h
          · exact absurd h hke
          · exact h
        have hs' : k ∉ e.1 :: seen := by
          intro hc
          rcases List.mem_cons.mp hc with h | h
          · exact hke h
          · exact hs h
        simp only [List.mem_cons]
        exact Or.inr (tallyNew_keys_complete t (e.1 :: seen) k hk' hs')

theorem tallyNew_keys_nodup : ∀ (l : List ((Int × Int) × List Share))
    (seen : List (Int × Int)), ((tallyNew l seen).map Prod.fst).Nodup
  | [], _ => by simp [tallyNew]
  | e :: t, seen => by
    by_cases hmem : e.1 ∈ seen
    · simp only [tallyNew, if_pos hmem]
      exact tallyNew_keys_nodup t seen
    · simp only [tallyNew, if_neg hmem, List.map_cons, List.nodup_cons]
      refine ⟨?_, tallyNew_keys_nodup t (e.1 :: seen)⟩
      intro hc
      obtain ⟨en, hen, hk⟩ := List.mem_map.mp hc
      have := (tallyNew_mem t (e.1 :: seen) en.1 en.2 (by simpa using hen)).1.2
      exact this (by simp [hk])

theorem firstIdx_cons_eq {e : (Int × Int) × List Share}
    {t : List ((Int × Int) × List Share)} {k : Int × Int} (h : e.1 = k) :
    firstIdx (e :: t) k = 0 := by
  simp [firstIdx, List.findIdx_cons, h]

theorem firstIdx_cons_ne {e : (Int × Int) × List Share}
    {t : List ((Int × Int) × List Share)} {k : Int × Int} (h : ¬(e.1 = k)) :
    firstIdx (e :: t) k = firstIdx t k + 1 := by
  simp [firstIdx, List.findIdx_cons, h]

theorem tallyNew_pairwise : ∀ (l : List ((Int × Int) × List Share))
    (seen : List (Int × Int)),
    (tallyNew l seen).Pairwise (fun a b => firstIdx l a.1 < firstIdx l b.1)
  | [], _ => by simp [tallyNew]
  | e :: t, seen => by
    by_cases hmem : e.1 ∈ seen
    · simp only [tallyNew, if_pos hmem]
      refine (tallyNew_pairwise t seen).imp_of_mem ?_
      intro a b ha hb hab
      have hka : ¬(e.1 = a.1) :=
        fun hc => (tallyNew_mem t seen a.1 a.2 (by simpa using ha)).1.2 (hc ▸ hmem)
      have hkb : ¬(e.1 = b.1) :=
        fun hc => (tallyNew_mem t seen b.1 b.2 (by simpa using hb)).1.2 (hc ▸ hmem)
      rw [firstIdx_cons_ne hka, firstIdx_cons_ne hkb]
      omega
    · simp only [tallyNew, if_neg hmem, List.pairwise_cons]
      constructor
      · intro b hb
        have hkb : ¬(e.1 = b.1) := by
          intro hc
          exact (tallyNew_mem t (e.1 :: seen) b.1 b.2 (by simpa using hb)).1.2 (by simp [hc])
        rw [firstIdx_cons_eq rfl, firstIdx_cons_ne hkb]
        omega
      · refine (tallyNew_pairwise t (e.1 :: seen)).imp_of_mem ?_
        intro a b ha hb hab
        have hka : ¬(e.1 = a.1) := by
          intro hc
          exact (tallyNew_mem t (e.1 :: seen) a.1 a.2 (by simpa using ha)).1.2 (by simp [hc])
        have hkb : ¬(e.1 = b.1) := by
          intro hc
          exact (tallyNew_mem t (e.1 :: seen) b.1 b.2 (by simpa using hb)).1.2 (by simp [hc])
        rw [firstIdx_cons_ne hka, firstIdx_cons_ne hkb]
        omega

theorem selectLeader_total (freq : List ((Int × Int) × Nat)) :
    (freq = [] ∧ selectLeader freq = (none, -1)) ∨
    (∃ (k : Int × Int) (c : Nat) (f1 f2 : List ((Int × Int) × Nat)),
      freq = f1 ++ (k, c) :: f2 ∧ selectLeader freq = (some k, (c : Int)) ∧
      (∀ e ∈ f1, e.2 < c) ∧ (∀ e ∈ f2, e.2 ≤ c)) := by
  induction freq using List.reverseRecOn with
  | nil => exact Or.inl ⟨rfl, rfl⟩
  | append_singleton f1' e ih =>
    have hsel : selectLeader (f1' ++ [e]) =
        (if (e.2 : Int) > (selectLeader f1').2
         then (some e.1, (e.2 : Int)) else selectLeader f1') := by
      simp [selectLeader, List.foldl_append]
    rcases ih with ⟨hnil, hsel'⟩ | ⟨k, c, f1, f2, hfr, hsel', h1, h2⟩
    · subst hnil
      refine Or.inr ⟨e.1, e.2, [], [], by simp, ?_, by simp, by simp⟩
      rw [hsel, hsel']
      have hpos : (e.2 : Int) > (-1 : Int) := by
        have : (0 : Int) ≤ (e.2 : Int) := Int.ofNat_nonneg e.2
        omega
      rw [if_pos hpos]
    · by_cases hgt : (e.2 : Int) > (c : Int)
      · refine Or.inr ⟨e.1, e.2, f1 ++ (k, c) :: f2, [], by rw [hfr], ?_, ?_, by simp⟩
        · rw [hsel, hsel']
          exact if_pos hgt
        · intro x hx
          have hce : c < e.2 := by exact_mod_cast hgt
          rcases List.mem_append.mp hx with hx | hx
          · have := h1 x hx
            omega
          · rcases List.mem_cons.mp hx with hx | hx
            · rw [hx]
              omega
            · have := h2 x hx
              omega
      · refine Or.inr ⟨k, c, f1, f2 ++ [e], by rw [hfr]; simp, ?_, h1, ?_⟩
        · rw [hsel, hsel']
          exact if_neg hgt
        · intro x hx
          rcases List.mem_append.mp hx with hx | hx
          · exact h2 x hx
          · have hxe : x = e := by simpa using hx
            rw [hxe]
            exact_mod_cast not_lt.mp hgt

theorem traceNew_mem : ∀ (l : List ((Int × Int) × List Share))
    (seen : List (Int × Int)) (k : Int × Int) (s : List Share),
    (k, s) ∈ traceNew l seen →
    k ∉ seen ∧ l.find? (fun e => decide (e.1 = k)) = some (k, s)
  | [], _, _, _, h => absurd h (by simp [traceNew])
  | e :: t, seen, k, s, h => by
    by_cases hmem : e.1 ∈ seen
    · simp only [traceNew, if_pos hmem] at h
      obtain ⟨hs, hfind⟩ := traceNew_mem t seen k s h
      have hk : ¬(e.1 = k) := fun hc => hs (hc ▸ hmem)
      refine ⟨hs, ?_⟩
      rw [List.find?_cons_of_neg _ (by simpa using hk), hfind]
    · simp only [traceNew, if_neg hmem, List.mem_cons] at h
      rcases h with h | h
      · have hke : e = (k, s) := h.symm
        have hk : e.1 = k := by rw [hke]
        refine ⟨hk ▸ hmem, ?_⟩
        rw [List.find?_cons_of_pos _ (by simpa using hk), hke]
      · obtain ⟨hs, hfind⟩ := traceNew_mem t (e.1 :: seen) k s h
        have hk : ¬(e.1 = k) := by
          intro hc
          exact hs (by simp [hc])
        refine ⟨fun hc => hs (by simp [hc]), ?_⟩
        rw [List.find?_cons_of_neg _ (by simpa using hk), hfind]

theorem traceNew_keys_complete : ∀ (l : List ((Int × Int) × List Share))
    (seen : List (Int × Int)) (k : Int × Int),
    k ∈ l.map Prod.fst → k ∉ seen → k ∈ (traceNew l seen).map Prod.fst
  | [], _, _, hk, _ => absurd hk (by simp)
  | e :: t, seen, k, hk, hs => by
    rw [List.map_cons, List.mem_cons] at hk
    by_cases hmem : e.1 ∈ seen
    · simp only [traceNew, if_pos hmem]
      have hk' : k ∈ t.map Prod.fst := by
        rcases hk with h | h
        · exact absurd (h ▸ hmem) hs
        · exact h
      exact traceNew_keys_complete t seen k hk' hs
    · simp only [traceNew, if_neg hmem, List.map_cons]
      by_cases hke : k = e.1
      · simp [hke]
      · have hk' : k ∈ t.map Prod.fst := by
          rcases hk with h | h
          · exact absurd h hke
          · exact h
        have hs' : k ∉ e.1 :: seen := by
          intro hc
          rcases List.mem_cons.mp hc with h | h
          · exact hke h
          · exact hs h
        simp only [List.mem_cons]
        exact Or.inr (traceNew_keys_complete t (e.1 :: seen) k hk' hs')

theorem traceNew_keys_nodup : ∀ (l : List ((Int × Int) × List Share))
    (seen : List (Int × Int)), ((traceNew l seen).map Prod.fst).Nodup
  | [], _ => by simp [traceNew]
  | e :: t, seen => by
    by_cases hmem : e.1 ∈ seen
    · simp only [traceNew, if_pos hmem]
      exact traceNew_keys_nodup t seen
    · simp only [traceNew, if_neg hmem, List.map_cons, List.nodup_cons]
      refine ⟨?_, traceNew_keys_nodup t (e.1 :: seen)⟩
      intro hc
      obtain ⟨en, hen, hk⟩ := List.mem_map.mp hc
      have := (traceNew_mem t (e.1 :: seen) en.1 en.2 (by simpa using hen)).1
      exact this (by simp [hk])

theorem find_key_of_mem {α : Type} : ∀ (tr : List ((Int × Int) × α)),
    ((tr.map Prod.fst).Nodup) → ∀ (k : Int × Int) (s : α), (k, s) ∈ tr →
    tr.find? (fun e => decide (e.1 = k)) = some (k, s)
  | [], _, _, _, h => absurd h (by simp)
  | e :: rest, hnd, k, s, h => by
    rcases List.mem_cons.mp h with h | h
    · have hke : e = (k, s) := h.symm
      have hk : e.1 = k := by rw [hke]
      rw [List.find?_cons_of_pos _ (by simpa using hk), hke]
    · have hk : ¬(e.1 = k) := by
        intro hc
        rw [List.map_cons, List.nodup_cons] at hnd
        exact hnd.1 (hc ▸ List.mem_map_of_mem Prod.fst h)
      rw [List.find?_cons_of_neg _ (by simpa using hk)]
      rw [List.map_cons, List.nodup_cons] at hnd
      exact find_key_of_mem rest hnd.2 k s h

/-- The frequency map that `recoverSecretFromJSON` builds: one entry per
distinct result, in first-occurrence order, carrying the full count. -/
theorem buildTally_freq (l : List ((Int × Int) × List Share)) :
    (buildTally l).1 = tallyNew l [] := by
  rw [buildTally_eq]
  have := freqFold_char l [] (by simp)
  simpa using this

theorem buildTally_trace (l : List ((Int × Int) × List Share)) :
    (buildTally l).2 = traceNew l [] := by
  rw [buildTally_eq]
  have := traceFold_char l []
  simpa using this

/-- The winner of the consensus selection: a maximal-count key that, among
equally counted keys, has the earliest first-producing subset. -/
theorem consensus_winner_spec (l : List ((Int × Int) × List Share))
    (k : Int × Int) (hwin : (selectLeader (buildTally l).1).1 = some k) :
    k ∈ l.map Prod.fst ∧
    (∀ k' ∈ l.map Prod.fst, countKey l k' ≤ countKey l k) ∧
    (∀ k' ∈ l.map Prod.fst, countKey l k' = countKey l k →
      firstIdx l k ≤ firstIdx l k') := by
  rw [buildTally_freq] at hwin
  rcases selectLeader_total (tallyNew l []) with ⟨_, hsel⟩ | hspec
  · rw [hsel] at hwin
    exact absurd hwin (by simp)
  obtain ⟨k0, c, f1, f2, hfr, hsel, h1, h2⟩ := hspec
  rw [hsel] at hwin
  have hk0 : k0 = k := by simpa using hwin
  subst hk0
  have hentry : (k0, c) ∈ tallyNew l [] := by
    rw [hfr]
    simp
  obtain ⟨⟨hc, _⟩, hcpos⟩ := tallyNew_mem l [] k0 c hentry
  have hkmem : k0 ∈ l.map Prod.fst := by
    have hpos : 0 < countKey l k0 := hc ▸ hcpos
    rw [countKey] at hpos
    obtain ⟨e, he, hp⟩ := List.countP_pos.mp hpos
    exact List.mem_map.mpr ⟨e, he, by simpa using hp⟩
  have hfind : ∀ k' ∈ l.map Prod.fst, ∃ c', (k', c') ∈ tallyNew l [] ∧
      c' = countKey l k' := by
    intro k' hk'
    have := tallyNew_keys_complete l [] k' hk' (by simp)
    obtain ⟨en, hen, hk⟩ := List.mem_map.mp this
    refine ⟨en.2, by rw [← hk, Prod.mk.eta]; exact hen, ?_⟩
    have := (tallyNew_mem l [] en.1 en.2 (by simpa using hen)).1.1
    rw [hk] at this
    exact this
  refine ⟨hkmem, ?_, ?_⟩
  · intro k' hk'
    obtain ⟨c', hc'mem, hc'⟩ := hfind k' hk'
    rw [← hc, ← hc']
    rw [hfr] at hc'mem
    rcases List.mem_append.mp hc'mem with hx | hx
    · exact le_of_lt (h1 _ hx)
    · rcases List.mem_cons.mp hx with hx | hx
      · rw [Prod.mk.injEq] at hx
        omega
      · exact h2 _ hx
  · intro k' hk' heq
    obtain ⟨c', hc'mem, hc'⟩ := hfind k' hk'
    have hceq : c' = c := by omega
    rw [hfr] at hc'mem
    rcases List.mem_append.mp hc'mem with hx | hx
    · have := h1 _ hx
      omega
    · rcases List.mem_cons.mp hx with hx | hx
      · rw [Prod.mk.injEq] at hx
        rw [hx.1]
      · have hpw := tallyNew_pairwise l []
        rw [hfr] at hpw
        rw [List.pairwise_append] at hpw
        have hmid := hpw.2.1
        rw [List.pairwise_cons] at hmid
        exact le_of_lt (hmid.1 _ hx)

/-- The representative subset stored for any tallied key is the first
subset (in enumeration order) that produced that key. -/
theorem consensus_trace_spec (l : List ((Int × Int) × List Share)) :
    ∀ k' ∈ l.map Prod.fst,
    lookupTrace (buildTally l).2 k' =
      ((l.find? (fun e => decide (e.1 = k'))).map Prod.snd).getD [] := by
  intro k' hk'
  rw [buildTally_trace]
  have hmem := traceNew_keys_complete l [] k' hk' (by simp)
  obtain ⟨en, hen, hk⟩ := List.mem_map.mp hmem
  have hen' : (k', en.2) ∈ traceNew l [] := by rw [← hk, Prod.mk.eta]; exact hen
  have hfound := (traceNew_mem l [] k' en.2 hen').2
  have hfind := find_key_of_mem (traceNew l []) (traceNew_keys_nodup l []) k' en.2 hen'
  rw [lookupTrace, hfind, hfound]

theorem selectLeader_isSome (l : List ((Int × Int) × List Share))
    (hne : l ≠ []) : ∃ k, (selectLeader (buildTally l).1).1 = some k := by
  rw [buildTally_freq]
  rcases selectLeader_total (tallyNew l []) with ⟨hnil, _⟩ | hspec
  · exfalso
    rcases l with _ | ⟨e, t⟩
    · exact hne rfl
    · rw [tallyNew, if_neg (by simp)] at hnil
      exact absurd hnil (by simp)
  · obtain ⟨k, c, f1, f2, _, hsel, _, _⟩ := hspec
    exact ⟨k, by rw [hsel]⟩

/-- When one key strictly dominates all other keys' counts, it wins. -/
theorem winner_of_strict_max (l : List ((Int × Int) × List Share))
    (K : Int × Int) (hK : K ∈ l.map Prod.fst)
    (hmax : ∀ k' ∈ l.map Prod.fst, k' ≠ K → countKey l k' < countKey l K) :
    (selectLeader (buildTally l).1).1 = some K := by
  have hne : l ≠ [] := by
    intro hc
    rw [hc] at hK
    exact absurd hK (by simp)
  obtain ⟨k, hk⟩ := selectLeader_isSome l hne
  obtain ⟨hkmem, hmaxk, _⟩ := consensus_winner_spec l k hk
  by_cases hkk : k = K
  · rw [hkk] at hk
    exact hk
  · have h1 := hmax k hkmem hkk
    have h2 := hmaxk K hK
    omega

/-! ## Subset enumerator combinatorics -/

theorem range_getD {n i : Nat} (h : i < n) : (List.range n).getD i 0 = i := by
  rw [List.getD_eq_getElem _ _ (by simpa using h), List.getElem_range]

theorem backtrack_shape (n : Nat) : ∀ (rem start : Nat) (chosen : List Nat)
    (c : List Nat), c ∈ backtrack (List.range n) n rem start chosen →
    ∃ tail, c = chosen ++ tail ∧ tail.length = rem ∧
      tail.Pairwise (· < ·) ∧ ∀ x ∈ tail, start ≤ x ∧ x < n
  | 0, _, chosen, c, h => by
    simp only [backtrack, List.mem_singleton] at h
    exact ⟨[], by simp [h], rfl, by simp, by simp⟩
  | rem + 1, start, chosen, c, h => by
    simp only [backtrack, List.mem_flatMap] at h
    obtain ⟨i, hi, hc⟩ := h
    have hi' : start ≤ i ∧ i < start + (n - rem - start) := by
      rw [List.mem_range'] at hi
      obtain ⟨t, ht, rfl⟩ := hi
      omega
    have hin : i < n := by omega
    rw [range_getD hin] at hc
    obtain ⟨tail', hc', hlen, hpw, hbd⟩ :=
      backtrack_shape n rem (i + 1) (chosen ++ [i]) c hc
    refine ⟨i :: tail', by simpa using hc', by simpa using hlen, ?_, ?_⟩
    · rw [List.pairwise_cons]
      exact ⟨fun x hx => by have := hbd x hx; omega, hpw⟩
    · intro x hx
      rcases List.mem_cons.mp hx with hx | hx
      · omega
      · have := hbd x hx
        omega

theorem sum_choose_aux (rem n : Nat) : ∀ (cnt start : Nat), n - rem - start = cnt →
    ((List.range' start cnt).map (fun i => (n - (i + 1)).choose rem)).sum =
      (n - start).choose (rem + 1)
  | 0, start, h => by
    simp only [List.range'_zero, List.map_nil, List.sum_nil]
    have : n - start < rem + 1 := by omega
    exact (Nat.choose_eq_zero_of_lt this).symm
  | cnt + 1, start, h => by
    rw [List.range'_succ, List.map_cons, List.sum_cons,
      sum_choose_aux rem n cnt (start + 1) (by omega)]
    have h1 : start + rem < n := by omega
    have h2 : n - start = (n - start - 1) + 1 := by omega
    have h3 : n - (start + 1) = n - start - 1 := by omega
    rw [h2, h3, Nat.choose_succ_succ]

theorem backtrack_length (n : Nat) : ∀ (rem start : Nat) (chosen : List Nat),
    (backtrack (List.range n) n rem start chosen).length = (n - start).choose rem
  | 0, start, chosen => by simp [backtrack]
  | rem + 1, start, chosen => by
    rw [backtrack, List.length_flatMap]
    have hmap : (List.range' start (n - rem - start)).map
        (List.length ∘ fun i => backtrack (List.range n) n rem (i + 1)
          (chosen ++ [(List.range n).getD i 0])) =
        (List.range' start (n - rem - start)).map
          (fun i => (n - (i + 1)).choose rem) := by
      apply List.map_congr_left
      intro i _
      exact backtrack_length n rem (i + 1) _
    rw [hmap, sum_choose_aux rem n (n - rem - start) start rfl]

theorem backtrack_nodup (n : Nat) : ∀ (rem start : Nat) (chosen : List Nat),
    (backtrack (List.range n) n rem start chosen).Nodup
  | 0, _, chosen => by simp [backtrack]
  | rem + 1, start, chosen => by
    rw [backtrack, List.nodup_flatMap]
    constructor
    · intro i _
      exact backtrack_nodup n rem (i + 1) _
    · have hnd := List.nodup_range' start (n - rem - start)
      refine hnd.imp_of_mem ?_
      intro a b ha hb hab c hca hcb
      have han : a < n := by
        rw [List.mem_range'] at ha
        obtain ⟨t, ht, rfl⟩ := ha
        omega
      have hbn : b < n := by
        rw [List.mem_range'] at hb
        obtain ⟨t, ht, rfl⟩ := hb
        omega
      have hca2 : c ∈ backtrack (List.range n) n rem (a + 1) (chosen ++ [a]) := by
        have h0 := hca
        simp only [] at h0
        rwa [range_getD han] at h0
      have hcb2 : c ∈ backtrack (List.range n) n rem (b + 1) (chosen ++ [b]) := by
        have h0 := hcb
        simp only [] at h0
        rwa [range_getD hbn] at h0
      obtain ⟨ta, hca', _, _, _⟩ := backtrack_shape n rem (a + 1) (chosen ++ [a]) c hca2
      obtain ⟨tb, hcb', _, _, _⟩ := backtrack_shape n rem (b + 1) (chosen ++ [b]) c hcb2
      rw [hca'] at hcb'
      rw [List.append_assoc, List.append_assoc] at hcb'
      have := List.append_cancel_left hcb'
      simp only [List.singleton_append, List.cons.injEq] at this
      exact hab this.1

/-! ## Sorting, error dichotomy, and the candidate pipeline -/

theorem except_bind_error {α β : Type} (e : RecErr) (f : α → Except RecErr β) :
    (Except.error e >>= f : Except RecErr β) = .error e := rfl

theorem insertShare_perm (a : Share) : ∀ l : List Share,
    (insertShare a l).Perm (a :: l)
  | [] => List.Perm.refl _
  | t :: ts => by
    rw [insertShare]
    by_cases h : a.x ≤ t.x
    · rw [if_pos h]
    · rw [if_neg h]
      exact List.Perm.trans ((insertShare_perm a ts).cons t) (List.Perm.swap a t ts)

theorem sortByX_perm : ∀ l : List Share, (sortByX l).Perm l
  | [] => List.Perm.refl _
  | a :: l => ((insertShare_perm a (sortByX l)).trans ((sortByX_perm l).cons a))

theorem insertShare_sorted (a : Share) : ∀ l : List Share,
    l.Pairwise (fun p q => p.x ≤ q.x) →
    (insertShare a l).Pairwise (fun p q => p.x ≤ q.x)
  | [], _ => by simp [insertShare]
  | t :: ts, h => by
    rw [List.pairwise_cons] at h
    rw [insertShare]
    by_cases hle : a.x ≤ t.x
    · rw [if_pos hle, List.pairwise_cons]
      refine ⟨?_, List.pairwise_cons.mpr h⟩
      intro b hb
      rcases List.mem_cons.mp hb with hb | hb
      · rw [hb]
        exact hle
      · exact le_trans hle (h.1 b hb)
    · rw [if_neg hle, List.pairwise_cons]
      constructor
      · intro b hb
        have := (insertShare_perm a ts).mem_iff.mp hb
        rcases List.mem_cons.mp this with hb' | hb'
        · rw [hb']
          omega
        · exact h.1 b hb'
      · exact insertShare_sorted a ts h.2

theorem sortByX_sorted : ∀ l : List Share,
    (sortByX l).Pairwise (fun p q => p.x ≤ q.x)
  | [] => by simp [sortByX]
  | a :: l => insertShare_sorted a (sortByX l) (sortByX_sorted l)

theorem sortByX_length (l : List Share) : (sortByX l).length = l.length :=
  (sortByX_perm l).length_eq

/-- On pairwise-distinct `x`-coordinates, any stable sort result is the
unique `<`-sorted permutation. -/
theorem sortByX_eq_of_sorted (shares0 S : List Share)
    (hperm : shares0.Perm S) (hS : S.Pairwise (fun p q => p.x < q.x)) :
    sortByX shares0 = S := by
  haveI : IsAntisymm Share (fun p q => p.x < q.x) :=
    ⟨fun a b h1 h2 => absurd (lt_trans h1 h2) (lt_irrefl _)⟩
  have hperm' : (sortByX shares0).Perm S := (sortByX_perm shares0).trans hperm
  have hne : (sortByX shares0).Pairwise (fun p q => p.x ≠ q.x) := by
    have hS' : S.Pairwise (fun p q => p.x ≠ q.x) := hS.imp (fun h => ne_of_lt h)
    exact (hperm'.pairwise_iff (fun h => Ne.symm h)).mpr hS'
  have hlt : (sortByX shares0).Pairwise (fun p q => p.x < q.x) := by
    have hle := sortByX_sorted shares0
    have := List.Pairwise.and hle hne
    exact this.imp (fun h => lt_of_le_of_ne h.1 h.2)
  exact List.eq_of_perm_of_sorted hperm' hlt hS

theorem basisLoop_cases (xPos : Int) (i : Nat) : ∀ (l : List Share) (j : Nat)
    (acc : Rational), acc.Inv →
    (∃ r, basisLoop xPos i j l acc = .ok r ∧ r.Inv) ∨
    basisLoop xPos i j l acc = .error .divideByZero
  | [], _, acc, hacc => Or.inl ⟨acc, rfl, hacc⟩
  | s :: rest, j, acc, hacc => by
    by_cases hj : j = i
    · rcases basisLoop_cases xPos i rest (j + 1) acc hacc with ⟨r, hr, hrinv⟩ | herr
      · exact Or.inl ⟨r, by simp only [basisLoop, if_pos hj]; exact hr, hrinv⟩
      · exact Or.inr (by simp only [basisLoop, if_pos hj]; exact herr)
    · by_cases hzero : xPos - s.x = 0
      · refine Or.inr ?_
        simp only [basisLoop, if_neg hj]
        rw [Rational.make_ok one_ne_zero, except_bind_ok,
          Rational.make_ok one_ne_zero, except_bind_ok,
          Rational.normalize_den_one, Rational.normalize_den_one]
        rw [Rational.div, if_pos (by simpa using hzero)]
        rfl
      · obtain ⟨q, hq_eq, hq_inv, _⟩ :=
          Rational.div_spec (Rational.int_inv (-s.x)) (Rational.int_inv (xPos - s.x))
            (by simpa using hzero)
        obtain ⟨acc', ha_eq, ha_inv, _⟩ := Rational.mul_spec hacc hq_inv
        rcases basisLoop_cases xPos i rest (j + 1) acc' ha_inv with ⟨r, hr, hrinv⟩ | herr
        · refine Or.inl ⟨r, ?_, hrinv⟩
          simp only [basisLoop, if_neg hj]
          rw [Rational.make_ok one_ne_zero, except_bind_ok,
            Rational.make_ok one_ne_zero, except_bind_ok,
            Rational.normalize_den_one, Rational.normalize_den_one,
            hq_eq, except_bind_ok, ha_eq, except_bind_ok]
          exact hr
        · refine Or.inr ?_
          simp only [basisLoop, if_neg hj]
          rw [Rational.make_ok one_ne_zero, except_bind_ok,
            Rational.make_ok one_ne_zero, except_bind_ok,
            Rational.normalize_den_one, Rational.normalize_den_one,
            hq_eq, except_bind_ok, ha_eq, except_bind_ok]
          exact herr

theorem sumLoop_cases (pts : List Share) : ∀ (l : List Share) (i : Nat)
    (total : Rational), total.Inv →
    (∃ r, sumLoop pts i l total = .ok r ∧ r.Inv) ∨
    sumLoop pts i l total = .error .divideByZero
  | [], _, total, htot => Or.inl ⟨total, rfl, htot⟩
  | s :: rest, i, total, htot => by
    rcases basisLoop_cases s.x i pts 0 (Rational.fromBigInt 1)
        (Rational.fromBigInt_eq 1 ▸ Rational.int_inv 1) with ⟨b, hb, hbinv⟩ | herr
    · obtain ⟨term, ht_eq, ht_inv, _⟩ :=
        Rational.mul_spec (Rational.fromBigInt_eq s.y ▸ Rational.int_inv s.y) hbinv
      obtain ⟨total', hto_eq, hto_inv, _⟩ := Rational.add_spec htot ht_inv
      rcases sumLoop_cases pts rest (i + 1) total' hto_inv with ⟨r, hr, hrinv⟩ | herr2
      · refine Or.inl ⟨r, ?_, hrinv⟩
        simp only [sumLoop]
        rw [hb, except_bind_ok, ht_eq, except_bind_ok, hto_eq, except_bind_ok]
        exact hr
      · refine Or.inr ?_
        simp only [sumLoop]
        rw [hb, except_bind_ok, ht_eq, except_bind_ok, hto_eq, except_bind_ok]
        exact herr2
    · refine Or.inr ?_
      simp only [sumLoop]
      rw [herr]
      rfl

/-- The engine either succeeds with a normal-form rational or throws the
divide-by-zero error; no other outcome exists. -/
theorem reconstructAtOrigin_cases (pts : List Share) :
    (∃ r, reconstructAtOrigin pts = .ok r ∧ r.Inv) ∨
    reconstructAtOrigin pts = .error .divideByZero :=
  sumLoop_cases pts pts 0 Rational.zero (Rational.zero_eq ▸ Rational.int_inv 0)

theorem collectCands_cases (shares : List Share) : ∀ (combos : List (List Nat)),
    (∃ cands, collectCands shares combos = .ok cands) ∨
    collectCands shares combos = .error .divideByZero
  | [] => Or.inl ⟨[], rfl⟩
  | c :: rest => by
    rcases reconstructAtOrigin_cases (c.map (fun i => shares.getD i default)) with
      ⟨r, hr, _⟩ | herr
    · rcases collectCands_cases shares rest with ⟨cands, hc⟩ | herr2
      · refine Or.inl ⟨(keyOf r, c.map (fun i => shares.getD i default)) :: cands, ?_⟩
        simp only [collectCands]
        rw [hr, except_bind_ok, hc, except_bind_ok]
      · refine Or.inr ?_
        simp only [collectCands]
        rw [hr, except_bind_ok, herr2]
        rfl
    · refine Or.inr ?_
      simp only [collectCands]
      rw [herr]
      rfl

theorem collectCands_length (shares : List Share) : ∀ (combos : List (List Nat))
    (cands : List ((Int × Int) × List Share)),
    collectCands shares combos = .ok cands → cands.length = combos.length
  | [], cands, h => by
    simp only [collectCands] at h
    cases h
    rfl
  | c :: rest, cands, h => by
    simp only [collectCands] at h
    rcases hrec : reconstructAtOrigin (c.map (fun i => shares.getD i default)) with
      e | r
    · rw [hrec, except_bind_error] at h
      cases h
    · rw [hrec, except_bind_ok] at h
      rcases hc : collectCands shares rest with e | tail
      · rw [hc, except_bind_error] at h
        cases h
      · rw [hc, except_bind_ok] at h
        cases h
        simp [collectCands_length shares rest tail hc]

theorem collectCands_entries (shares : List Share) : ∀ (combos : List (List Nat))
    (cands : List ((Int × Int) × List Share)),
    collectCands shares combos = .ok cands →
    ∀ e ∈ cands, ∃ r, r.Inv ∧ e.1 = (r.num, r.den) ∧
      reconstructAtOrigin e.2 = .ok r
  | [], cands, h => by
    simp only [collectCands] at h
    cases h
    intro e he
    exact absurd he (by simp)
  | c :: rest, cands, h => by
    simp only [collectCands] at h
    rcases hrec : reconstructAtOrigin (c.map (fun i => shares.getD i default)) with
      e0 | r
    · rw [hrec, except_bind_error] at h
      cases h
    · rw [hrec, except_bind_ok] at h
      rcases hc : collectCands shares rest with e0 | tail
      · rw [hc, except_bind_error] at h
        cases h
      · rw [hc, except_bind_ok] at h
        cases h
        intro e he
        rcases List.mem_cons.mp he with he | he
        · rcases reconstructAtOrigin_cases (c.map (fun i => shares.getD i default)) with
            ⟨r2, hr2, hrinv⟩ | herr
          · rw [hrec] at hr2
            injection hr2 with h3
            subst h3
            exact ⟨r, hrinv, by rw [he]; rfl, by rw [he]; exact hrec⟩
          · rw [hrec] at herr
            cases herr
        · exact collectCands_entries shares rest tail hc e he

/-- C9: for every share sequence of length `n < k`, the consensus procedure
fails with `InsufficientSharesError` (`'Not enough shares in input'`),
before any subset is enumerated or interpolated. -/
theorem recoverSecret_insufficient (shares0 : List Share) (k : Nat)
    (h : shares0.length < k) : recoverSecret shares0 k = .error .notEnoughShares := by
  have h' : (sortByX shares0).length < k := by
    rw [sortByX_length]
    exact h
  simp only [recoverSecret, if_pos h']

theorem recoverSecret_collect_err (shares0 : List Share) (k : Nat)
    (hlen : ¬(sortByX shares0).length < k) (e : RecErr)
    (herr : collectCands (sortByX shares0)
      (chooseCombos (List.range (sortByX shares0).length) k) = .error e) :
    recoverSecret shares0 k = .error e := by
  simp only [recoverSecret, if_neg hlen, herr, except_bind_error]

theorem recoverSecret_winner (shares0 : List Share) (k : Nat)
    (hlen : ¬(sortByX shares0).length < k)
    (cands : List ((Int × Int) × List Share))
    (hcands : collectCands (sortByX shares0)
      (chooseCombos (List.range (sortByX shares0).length) k) = .ok cands)
    (K : Int × Int) (hwin : (selectLeader (buildTally cands).1).1 = some K)
    (r : Rational) (hmk : Rational.make K.1 K.2 = .ok r) :
    recoverSecret shares0 k =
      match r.toIntegerIfExact with
      | some v => .ok (.integer v (lookupTrace (buildTally cands).2 K))
      | none => .ok (.rational r (lookupTrace (buildTally cands).2 K)) := by
  simp only [recoverSecret, if_neg hlen, hcands, except_bind_ok, hwin, hmk]

theorem chooseCombos_range_ne_nil (n k : Nat) (h : k ≤ n) :
    chooseCombos (List.range n) k ≠ [] := by
  intro hc
  have hlen := backtrack_length n k 0 []
  rw [show backtrack (List.range n) n k 0 [] =
      chooseCombos (List.range n) k from by
        rw [chooseCombos, List.length_range], hc] at hlen
  simp only [List.length_nil] at hlen
  have := Nat.choose_pos (by omega : k ≤ n - 0)
  omega

/-- C6 (amended): the consensus procedure fails with `NoConsensusError`
exactly when the tally is empty, but for every `k ≤ n` (including `k = 0`)
the tally holds at least one entry — at `k = 0` the single empty subset
votes for the zero rational and the procedure returns integer 0 — so
`NoConsensusError` is never raised. -/
theorem recoverSecret_never_noConsensus (shares0 : List Share) (k : Nat)
    (h : k ≤ shares0.length) : recoverSecret shares0 k ≠ .error .noConsensus := by
  have hlen : ¬(sortByX shares0).length < k := by
    rw [sortByX_length]
    omega
  rcases collectCands_cases (sortByX shares0)
      (chooseCombos (List.range (sortByX shares0).length) k) with
    ⟨cands, hcands⟩ | herr
  · have hcombo_ne := chooseCombos_range_ne_nil (sortByX shares0).length k
      (by rw [sortByX_length]; exact h)
    have hclen := collectCands_length _ _ _ hcands
    have hcne : cands ≠ [] := by
      intro hc
      rw [hc] at hclen
      simp only [List.length_nil] at hclen
      exact hcombo_ne (List.length_eq_zero.mp hclen.symm)
    obtain ⟨K, hwin⟩ := selectLeader_isSome cands hcne
    have hKmem := (consensus_winner_spec cands K hwin).1
    obtain ⟨en, hen, hkey⟩ := List.mem_map.mp hKmem
    obtain ⟨r, hrinv, hk2, _⟩ := collectCands_entries _ _ _ hcands en hen
    have hden : K.2 ≠ 0 := by
      rw [← hkey, hk2]
      have := hrinv.1
      omega
    have hmk := Rational.make_ok (n := K.1) hden
    rw [recoverSecret_winner shares0 k hlen cands hcands K hwin _ hmk]
    rcases (Rational.normalize K.1 K.2).toIntegerIfExact with _ | v <;> simp
  · rw [recoverSecret_collect_err shares0 k hlen _ herr]
    simp

theorem basisLoop_err (xPos : Int) (i : Nat) : ∀ (l : List Share) (j : Nat)
    (acc : Rational) (t : Nat) (ht : t < l.length), j + t ≠ i →
    xPos = (l.get ⟨t, ht⟩).x → ∃ e, basisLoop xPos i j l acc = .error e
  | [], _, _, t, ht, _, _ => absurd ht (by simp)
  | s :: rest, j, acc, t, ht, hti, hx => by
    by_cases hj : j = i
    · have ht0 : t ≠ 0 := by
        intro hc
        subst hc
        omega
      obtain ⟨t', rfl⟩ := Nat.exists_eq_succ_of_ne_zero ht0
      have ht' : t' < rest.length := by
        simp only [List.length_cons] at ht
        omega
      obtain ⟨e, he⟩ := basisLoop_err xPos i rest (j + 1) acc t' ht'
        (by omega) (by simpa using hx)
      exact ⟨e, by simp only [basisLoop, if_pos hj]; exact he⟩
    · rcases t with _ | t'
      · have hx0 : xPos = s.x := by simpa using hx
        refine ⟨.divideByZero, ?_⟩
        simp only [basisLoop, if_neg hj]
        rw [Rational.make_ok one_ne_zero, except_bind_ok,
          Rational.make_ok one_ne_zero, except_bind_ok,
          Rational.normalize_den_one, Rational.normalize_den_one]
        rw [Rational.div, if_pos (by simp [hx0])]
        rfl
      · have ht' : t' < rest.length := by
          simp only [List.length_cons] at ht
          omega
        by_cases hzero : xPos - s.x = 0
        · refine ⟨.divideByZero, ?_⟩
          simp only [basisLoop, if_neg hj]
          rw [Rational.make_ok one_ne_zero, except_bind_ok,
            Rational.make_ok one_ne_zero, except_bind_ok,
            Rational.normalize_den_one, Rational.normalize_den_one]
          rw [Rational.div, if_pos (by simpa using hzero)]
          rfl
        · have hq : (Rational.mk (-s.x) 1).div ⟨xPos - s.x, 1⟩ =
              Rational.make ((-s.x) * 1) (1 * (xPos - s.x)) := by
            rw [Rational.div, if_neg (by simpa using hzero)]
          have hden1 : (1 : Int) * (xPos - s.x) ≠ 0 := by
            simpa using hzero
          by_cases haden : acc.den * (Rational.normalize ((-s.x) * 1)
              (1 * (xPos - s.x))).den = 0
          · refine ⟨.denominatorZero, ?_⟩
            simp only [basisLoop, if_neg hj]
            rw [Rational.make_ok one_ne_zero, except_bind_ok,
              Rational.make_ok one_ne_zero, except_bind_ok,
              Rational.normalize_den_one, Rational.normalize_den_one,
              hq, Rational.make_ok hden1, except_bind_ok]
            rw [Rational.mul, Rational.make, if_pos haden]
            rfl
          · obtain ⟨e, he⟩ := basisLoop_err xPos i rest (j + 1)
              (Rational.normalize (acc.num * (Rational.normalize ((-s.x) * 1)
                (1 * (xPos - s.x))).num) (acc.den * (Rational.normalize ((-s.x) * 1)
                (1 * (xPos - s.x))).den)) t' ht' (by omega) (by simpa using hx)
            refine ⟨e, ?_⟩
            simp only [basisLoop, if_neg hj]
            rw [Rational.make_ok one_ne_zero, except_bind_ok,
              Rational.make_ok one_ne_zero, except_bind_ok,
              Rational.normalize_den_one, Rational.normalize_den_one,
              hq, Rational.make_ok hden1, except_bind_ok]
            rw [Rational.mul, Rational.make_ok haden, except_bind_ok]
            exact he

theorem sumLoop_err (pts : List Share) (p q : Nat) (hp : p < pts.length)
    (hq : q < pts.length) (hpq : p ≠ q)
    (hx : (pts.get ⟨p, hp⟩).x = (pts.get ⟨q, hq⟩).x) :
    ∀ (l : List Share) (i : Nat) (total : Rational),
    ∀ (hlen : i + l.length = pts.length),
    (∀ (t : Nat) (ht : t < l.length),
      l.get ⟨t, ht⟩ = pts.get ⟨i + t, by omega⟩) →
    i ≤ p → ∃ e, sumLoop pts i l total = .error e
  | [], i, total, hlen, hget, hip => by
    simp only [List.length_nil] at hlen
    omega
  | s :: rest, i, total, hlen, hget, hip => by
    by_cases hi : i = p
    · subst hi
      have hs : s = pts.get ⟨i, hp⟩ := by
        have := hget 0 (by simp)
        simpa using this
      obtain ⟨e, he⟩ := basisLoop_err s.x i pts 0 (Rational.fromBigInt 1) q hq
        (by omega) (by rw [hs]; simpa using hx)
      refine ⟨e, ?_⟩
      simp only [sumLoop]
      rw [he]
      rfl
    · have hget' : ∀ (t : Nat) (ht : t < rest.length),
          rest.get ⟨t, ht⟩ = pts.get ⟨(i + 1) + t, by
            simp only [List.length_cons] at hlen; omega⟩ := by
        intro t ht
        have h2 := hget (t + 1) (by simpa using Nat.succ_lt_succ ht)
        have h3 : i + (t + 1) = (i + 1) + t := by omega
        simpa [h3] using h2
      have hlen' : (i + 1) + rest.length = pts.length := by
        simp only [List.length_cons] at hlen
        omega
      rcases hbl : basisLoop s.x i 0 pts (Rational.fromBigInt 1) with e | b
      · refine ⟨e, ?_⟩
        simp only [sumLoop]
        rw [hbl]
        rfl
      · rcases hml : (Rational.fromBigInt s.y).mul b with e | term
        · refine ⟨e, ?_⟩
          simp only [sumLoop]
          rw [hbl, except_bind_ok, hml]
          rfl
        · rcases hal : total.add term with e | total'
          · refine ⟨e, ?_⟩
            simp only [sumLoop]
            rw [hbl, except_bind_ok, hml, except_bind_ok, hal]
            rfl
          · obtain ⟨e, he⟩ := sumLoop_err pts p q hp hq hpq hx rest (i + 1) total'
              hlen' hget' (by omega)
            refine ⟨e, ?_⟩
            simp only [sumLoop]
            rw [hbl, except_bind_ok, hml, except_bind_ok, hal, except_bind_ok]
            exact he

/-- With two coinciding `x`-coordinates the engine throws the
divide-by-zero error. -/
theorem reconstructAtOrigin_dup (pts : List Share)
    (hdup : ¬pts.Pairwise (fun a b => a.x ≠ b.x)) :
    reconstructAtOrigin pts = .error .divideByZero := by
  rcases reconstructAtOrigin_cases pts with ⟨r, hr, _⟩ | herr
  · exfalso
    rw [List.pairwise_iff_get] at hdup
    push_neg at hdup
    obtain ⟨ip, jp, hij, hx⟩ := hdup
    obtain ⟨e, he⟩ := sumLoop_err pts ip.val jp.val ip.isLt jp.isLt
      (by omega) (by simpa using hx) pts 0 Rational.zero (by simp)
      (by intro t ht; simp) (by omega)
    rw [reconstructAtOrigin, he] at hr
    cases hr
  · exact herr

/-- C8: round-trip through construction and `toIntegerIfExact`. For every
integer `n` and nonzero `d` (either may be negative), constructing `n/d`
and querying `toIntegerIfExact` returns exactly the integer `n / d` when
`d` divides `n` evenly, and signals non-integral (`none`) otherwise —
never a rounded integer. -/
theorem make_toIntegerIfExact (n d : Int) (hd : d ≠ 0) :
    ∃ r, Rational.make n d = .ok r ∧
      ((d ∣ n → r.toIntegerIfExact = some (n / d)) ∧
       (¬d ∣ n → r.toIntegerIfExact = none)) := by
  refine ⟨Rational.normalize n d, Rational.make_ok hd, ?_, ?_⟩
  · intro hdvd
    have hinv := Rational.normalize_inv n d hd
    have hval := Rational.normalize_toQ n d hd
    have hint : Rational.normalize n d = ⟨n / d, 1⟩ := by
      apply Rational.inv_toQ_inj hinv (Rational.int_inv _)
      rw [hval, Rational.int_toQ, int_cast_ediv_q hdvd hd]
    rw [hint, Rational.toIntegerIfExact]
    simp
  · intro hndvd
    have hinv := Rational.normalize_inv n d hd
    have hval := Rational.normalize_toQ n d hd
    have hden1 : (Rational.normalize n d).den ≠ 1 := by
      intro hc
      apply hndvd
      have : ((Rational.normalize n d).num : ℚ) = (n : ℚ) / (d : ℚ) := by
        have h2 := hval
        rw [Rational.toQ, hc] at h2
        simpa using h2
      have hcross : ((Rational.normalize n d).num : ℚ) * (d : ℚ) = (n : ℚ) := by
        rw [this]
        field_simp
      have hcross' : (Rational.normalize n d).num * d = n := by exact_mod_cast hcross
      rw [mul_comm] at hcross'
      exact ⟨(Rational.normalize n d).num, hcross'.symm⟩
    rw [Rational.toIntegerIfExact, if_neg hden1]
    have hmod : (Rational.normalize n d).num.tmod (Rational.normalize n d).den ≠ 0 := by
      intro hc
      have hdvd2 : (Rational.normalize n d).den ∣ (Rational.normalize n d).num :=
        Int.dvd_iff_tmod_eq_zero.mpr (by simpa using hc)
      have hcop := hinv.2
      have hdpos := hinv.1
      have : (Rational.normalize n d).den = 1 := by
        have h1 : (Rational.normalize n d).den ∣ Int.gcd (Rational.normalize n d).num
            (Rational.normalize n d).den := by
          exact Int.dvd_gcd hdvd2 dvd_rfl
        rw [hcop] at h1
        have := Int.le_of_dvd one_pos h1
        omega
      exact hden1 this
    rw [if_neg hmod]

/-! ## Two-point interpolation values and the consensus-robustness setup -/

/-- The test line `y = 2x + 3` of the consensus-robustness scenario. -/
def OnLine (s : Share) : Prop := s.y = 2 * s.x + 3

instance (s : Share) : Decidable (OnLine s) := by
  unfold OnLine
  infer_instance

/-- Value at 0 of the line through two points, as computed by the engine. -/
def val2 (p q : Share) : ℚ :=
  ((p.y : ℚ) * (q.x : ℚ) - (q.y : ℚ) * (p.x : ℚ)) / ((q.x : ℚ) - (p.x : ℚ))

theorem qLagrange_pair (p q : Share) (h : p.x ≠ q.x) :
    qLagrange [p, q] = val2 p q := by
  have hpq : ((p.x : ℚ)) ≠ (q.x : ℚ) := by exact_mod_cast h
  have hq2 : ((p.x : ℚ)) - (q.x : ℚ) ≠ 0 := sub_ne_zero.mpr hpq
  have hq : ((q.x : ℚ)) - (p.x : ℚ) ≠ 0 := sub_ne_zero.mpr (Ne.symm hpq)
  simp only [qLagrange, qInterp, qBasis, val2]
  norm_num
  field_simp
  ring

theorem reconstruct2 (p q : Share) (h : p.x ≠ q.x) :
    ∃ r, reconstructAtOrigin [p, q] = .ok r ∧ r.Inv ∧ r.toQ = val2 p q := by
  obtain ⟨r, h1, h2, h3⟩ := reconstructAtOrigin_spec [p, q]
    (by simp [List.pairwise_cons, h])
  exact ⟨r, h1, h2, by rw [h3, qLagrange_pair p q h]⟩

theorem val2_swap (p q : Share) (h : p.x ≠ q.x) : val2 p q = val2 q p := by
  have hpq : ((p.x : ℚ)) ≠ (q.x : ℚ) := by exact_mod_cast h
  have hq2 : ((p.x : ℚ)) - (q.x : ℚ) ≠ 0 := sub_ne_zero.mpr hpq
  have hq : ((q.x : ℚ)) - (p.x : ℚ) ≠ 0 := sub_ne_zero.mpr (Ne.symm hpq)
  unfold val2
  rw [div_eq_div_iff hq hq2]
  ring

theorem val2_good (p q : Share) (hp : OnLine p) (hq : OnLine q) (h : p.x ≠ q.x) :
    val2 p q = 3 := by
  have hne : ((q.x : ℚ)) - (p.x : ℚ) ≠ 0 :=
    sub_ne_zero.mpr (by exact_mod_cast Ne.symm h)
  have hpy : (p.y : ℚ) = 2 * (p.x : ℚ) + 3 := by exact_mod_cast hp
  have hqy : (q.y : ℚ) = 2 * (q.x : ℚ) + 3 := by exact_mod_cast hq
  unfold val2
  rw [div_eq_iff hne, hpy, hqy]
  ring

theorem val2_bad_ne (g1 g2 b : Share) (h1 : OnLine g1) (h2 : OnLine g2)
    (h12 : g1.x ≠ g2.x) (hbl : ¬OnLine b) (hb0 : b.x ≠ 0)
    (hb1 : b.x ≠ g1.x) (hb2 : b.x ≠ g2.x) : val2 g1 b ≠ val2 g2 b := by
  intro heq
  apply hbl
  have hd1 : ((b.x : ℚ) - (g1.x : ℚ)) ≠ 0 := sub_ne_zero.mpr (by exact_mod_cast hb1)
  have hd2 : ((b.x : ℚ) - (g2.x : ℚ)) ≠ 0 := sub_ne_zero.mpr (by exact_mod_cast hb2)
  unfold val2 at heq
  rw [div_eq_div_iff hd1 hd2] at heq
  have hg1 : (g1.y : ℚ) = 2 * (g1.x : ℚ) + 3 := by exact_mod_cast h1
  have hg2q : (g2.y : ℚ) = 2 * (g2.x : ℚ) + 3 := by exact_mod_cast h2
  rw [hg1, hg2q] at heq
  have hfac : ((g1.x : ℚ) - (g2.x : ℚ)) * (b.x : ℚ) *
      (2 * (b.x : ℚ) - (b.y : ℚ) + 3) = 0 := by
    linear_combination heq
  have h12q : ((g1.x : ℚ) - (g2.x : ℚ)) ≠ 0 := sub_ne_zero.mpr (by exact_mod_cast h12)
  have hb0q : (b.x : ℚ) ≠ 0 := by exact_mod_cast hb0
  have h3 : 2 * (b.x : ℚ) - (b.y : ℚ) + 3 = 0 := by
    rcases mul_eq_zero.mp hfac with h | h
    · rcases mul_eq_zero.mp h with h | h
      · exact absurd h h12q
      · exact absurd h hb0q
    · exact h
  show b.y = 2 * b.x + 3
  have hq : (b.y : ℚ) = 2 * (b.x : ℚ) + 3 := by linarith
  exact_mod_cast hq

theorem keyOf_of_val3 {r : Rational} (hinv : r.Inv) (hval : r.toQ = 3) :
    keyOf r = (3, 1) := by
  have : r = ⟨3, 1⟩ := by
    apply Rational.inv_toQ_inj hinv (Rational.int_inv 3)
    rw [hval, Rational.int_toQ]
    norm_num
  rw [this]
  rfl

theorem keyOf_ne {r r' : Rational} (hr : r.Inv) (hr' : r'.Inv)
    (h : r.toQ ≠ r'.toQ) : keyOf r ≠ keyOf r' := by
  intro hc
  apply h
  unfold keyOf at hc
  rw [Prod.mk.injEq] at hc
  unfold Rational.toQ
  rw [hc.1, hc.2]

theorem winner_three_one (l : List ((Int × Int) × List Share))
    (hmem : ((3 : Int), (1 : Int)) ∈ l.map Prod.fst)
    (h3 : 3 ≤ countKey l ((3 : Int), (1 : Int)))
    (h1 : ∀ k' ∈ l.map Prod.fst, k' ≠ ((3 : Int), (1 : Int)) → countKey l k' ≤ 1) :
    (selectLeader (buildTally l).1).1 = some ((3 : Int), (1 : Int)) := by
  apply winner_of_strict_max l ((3 : Int), (1 : Int)) hmem
  intro k' hk' hne
  have := h1 k' hk' hne
  omega

theorem collectCands_cons (shares : List Share) (c : List Nat)
    (rest : List (List Nat)) (r : Rational)
    (tail : List ((Int × Int) × List Share))
    (hr : reconstructAtOrigin (c.map (fun i => shares.getD i default)) = .ok r)
    (ht : collectCands shares rest = .ok tail) :
    collectCands shares (c :: rest) =
      .ok ((keyOf r, c.map (fun i => shares.getD i default)) :: tail) := by
  simp only [collectCands]
  rw [hr, except_bind_ok, ht, except_bind_ok]

theorem consensus_core_bad1 (shares0 : List Share) (t1 t2 t3 t4 : Share)
    (hS : sortByX shares0 = [t1, t2, t3, t4])
    (h12 : t1.x ≠ t2.x) (h13 : t1.x ≠ t3.x) (h14 : t1.x ≠ t4.x)
    (h23 : t2.x ≠ t3.x) (h24 : t2.x ≠ t4.x) (h34 : t3.x ≠ t4.x)
    (hb : ¬OnLine t1) (hbx : t1.x ≠ 0)
    (hg2 : OnLine t2) (hg3 : OnLine t3) (hg4 : OnLine t4) :
    ∃ sub, recoverSecret shares0 2 = .ok (.integer 3 sub) := by
  obtain ⟨r12, e12, i12, v12⟩ := reconstruct2 t1 t2 h12
  obtain ⟨r13, e13, i13, v13⟩ := reconstruct2 t1 t3 h13
  obtain ⟨r14, e14, i14, v14⟩ := reconstruct2 t1 t4 h14
  obtain ⟨r23, e23, i23, v23⟩ := reconstruct2 t2 t3 h23
  obtain ⟨r24, e24, i24, v24⟩ := reconstruct2 t2 t4 h24
  obtain ⟨r34, e34, i34, v34⟩ := reconstruct2 t3 t4 h34
  have v12' : r12.toQ = val2 t2 t1 := by rw [v12, val2_swap t1 t2 h12]
  have v13' : r13.toQ = val2 t3 t1 := by rw [v13, val2_swap t1 t3 h13]
  have v14' : r14.toQ = val2 t4 t1 := by rw [v14, val2_swap t1 t4 h14]
  have k23 : keyOf r23 = (3, 1) :=
    keyOf_of_val3 i23 (by rw [v23, val2_good t2 t3 hg2 hg3 h23])
  have k24 : keyOf r24 = (3, 1) :=
    keyOf_of_val3 i24 (by rw [v24, val2_good t2 t4 hg2 hg4 h24])
  have k34 : keyOf r34 = (3, 1) :=
    keyOf_of_val3 i34 (by rw [v34, val2_good t3 t4 hg3 hg4 h34])
  have kAB : keyOf r12 ≠ keyOf r13 := keyOf_ne i12 i13
    (by rw [v12', v13']; exact val2_bad_ne t2 t3 t1 hg2 hg3 h23 hb hbx h12 h13)
  have kAC : keyOf r12 ≠ keyOf r14 := keyOf_ne i12 i14
    (by rw [v12', v14']; exact val2_bad_ne t2 t4 t1 hg2 hg4 h24 hb hbx h12 h14)
  have kBC : keyOf r13 ≠ keyOf r14 := keyOf_ne i13 i14
    (by rw [v13', v14']; exact val2_bad_ne t3 t4 t1 hg3 hg4 h34 hb hbx h13 h14)
  have hcombos : chooseCombos (List.range 4) 2 =
      [[0,1],[0,2],[0,3],[1,2],[1,3],[2,3]] := by decide
  have hcands : collectCands [t1,t2,t3,t4] (chooseCombos (List.range 4) 2) = .ok
      [(keyOf r12, [t1,t2]), (keyOf r13, [t1,t3]), (keyOf r14, [t1,t4]),
       (keyOf r23, [t2,t3]), (keyOf r24, [t2,t4]), (keyOf r34, [t3,t4])] := by
    rw [hcombos]
    exact collectCands_cons _ _ _ _ _ e12 (collectCands_cons _ _ _ _ _ e13
      (collectCands_cons _ _ _ _ _ e14 (collectCands_cons _ _ _ _ _ e23
      (collectCands_cons _ _ _ _ _ e24 (collectCands_cons _ _ _ _ _ e34 rfl)))))
  rw [k23, k24, k34] at hcands
  have hwin : (selectLeader (buildTally
      [(keyOf r12, [t1,t2]), (keyOf r13, [t1,t3]), (keyOf r14, [t1,t4]),
       (((3 : Int), (1 : Int)), [t2,t3]), (((3 : Int), (1 : Int)), [t2,t4]),
       (((3 : Int), (1 : Int)), [t3,t4])]).1).1 = some ((3 : Int), (1 : Int)) := by
    apply winner_three_one
    · simp
    · simp only [countKey, List.countP_cons, List.countP_nil, decide_eq_true_eq]
      split_ifs <;> omega
    · intro k' hk' hne
      simp only [List.map_cons, List.map_nil, List.mem_cons] at hk'
      rcases hk' with h | h | h | h | h | h | h
      · subst h
        have n1 : ¬(keyOf r13 = keyOf r12) := fun hc => kAB hc.symm
        have n2 : ¬(keyOf r14 = keyOf r12) := fun hc => kAC hc.symm
        have n3 : ¬(((3 : Int), (1 : Int)) = keyOf r12) := fun hc => hne hc.symm
        simp [countKey, List.countP_cons, n1, n2, n3]
      · subst h
        have n1 : ¬(keyOf r12 = keyOf r13) := kAB
        have n2 : ¬(keyOf r14 = keyOf r13) := fun hc => kBC hc.symm
        have n3 : ¬(((3 : Int), (1 : Int)) = keyOf r13) := fun hc => hne hc.symm
        simp [countKey, List.countP_cons, n1, n2, n3]
      · subst h
        have n1 : ¬(keyOf r12 = keyOf r14) := kAC
        have n2 : ¬(keyOf r13 = keyOf r14) := kBC
        have n3 : ¬(((3 : Int), (1 : Int)) = keyOf r14) := fun hc => hne hc.symm
        simp [countKey, List.countP_cons, n1, n2, n3]
      · exact absurd h hne
      · exact absurd h hne
      · exact absurd h hne
      · exact absurd h (by simp)
  have hlen' : ¬(sortByX shares0).length < 2 := by
    rw [hS]
    simp
  have hcands' : collectCands (sortByX shares0)
      (chooseCombos (List.range (sortByX shares0).length) 2) = .ok
      [(keyOf r12, [t1,t2]), (keyOf r13, [t1,t3]), (keyOf r14, [t1,t4]),
       (((3 : Int), (1 : Int)), [t2,t3]), (((3 : Int), (1 : Int)), [t2,t4]),
       (((3 : Int), (1 : Int)), [t3,t4])] := by
    rw [hS]
    exact hcands
  have hmk : Rational.make (3 : Int) (1 : Int) = .ok ⟨3, 1⟩ := by
    rw [Rational.make_ok one_ne_zero, Rational.normalize_den_one]
  refine ⟨lookupTrace (buildTally
      [(keyOf r12, [t1,t2]), (keyOf r13, [t1,t3]), (keyOf r14, [t1,t4]),
       (((3 : Int), (1 : Int)), [t2,t3]), (((3 : Int), (1 : Int)), [t2,t4]),
       (((3 : Int), (1 : Int)), [t3,t4])]).2 ((3 : Int), (1 : Int)), ?_⟩
  rw [recoverSecret_winner shares0 2 hlen' _ hcands' ((3 : Int), (1 : Int)) hwin
    ⟨3, 1⟩ hmk]
  rfl

theorem consensus_core_bad2 (shares0 : List Share) (t1 t2 t3 t4 : Share)
    (hS : sortByX shares0 = [t1, t2, t3, t4])
    (h12 : t1.x ≠ t2.x) (h13 : t1.x ≠ t3.x) (h14 : t1.x ≠ t4.x)
    (h23 : t2.x ≠ t3.x) (h24 : t2.x ≠ t4.x) (h34 : t3.x ≠ t4.x)
    (hb : ¬OnLine t2) (hbx : t2.x ≠ 0)
    (hg1 : OnLine t1) (hg3 : OnLine t3) (hg4 : OnLine t4) :
    ∃ sub, recoverSecret shares0 2 = .ok (.integer 3 sub) := by
  obtain ⟨r12, e12, i12, v12⟩ := reconstruct2 t1 t2 h12
  obtain ⟨r13, e13, i13, v13⟩ := reconstruct2 t1 t3 h13
  obtain ⟨r14, e14, i14, v14⟩ := reconstruct2 t1 t4 h14
  obtain ⟨r23, e23, i23, v23⟩ := reconstruct2 t2 t3 h23
  obtain ⟨r24, e24, i24, v24⟩ := reconstruct2 t2 t4 h24
  obtain ⟨r34, e34, i34, v34⟩ := reconstruct2 t3 t4 h34
  have v23' : r23.toQ = val2 t3 t2 := by rw [v23, val2_swap t2 t3 h23]
  have v24' : r24.toQ = val2 t4 t2 := by rw [v24, val2_swap t2 t4 h24]
  have k13 : keyOf r13 = (3, 1) :=
    keyOf_of_val3 i13 (by rw [v13, val2_good t1 t3 hg1 hg3 h13])
  have k14 : keyOf r14 = (3, 1) :=
    keyOf_of_val3 i14 (by rw [v14, val2_good t1 t4 hg1 hg4 h14])
  have k34 : keyOf r34 = (3, 1) :=
    keyOf_of_val3 i34 (by rw [v34, val2_good t3 t4 hg3 hg4 h34])
  have kAB : keyOf r12 ≠ keyOf r23 := keyOf_ne i12 i23
    (by rw [v12, v23'];
        exact val2_bad_ne t1 t3 t2 hg1 hg3 h13 hb hbx (Ne.symm h12) h23)
  have kAC : keyOf r12 ≠ keyOf r24 := keyOf_ne i12 i24
    (by rw [v12, v24'];
        exact val2_bad_ne t1 t4 t2 hg1 hg4 h14 hb hbx (Ne.symm h12) h24)
  have kBC : keyOf r23 ≠ keyOf r24 := keyOf_ne i23 i24
    (by rw [v23', v24'];
        exact val2_bad_ne t3 t4 t2 hg3 hg4 h34 hb hbx h23 h24)
  have hcombos : chooseCombos (List.range 4) 2 =
      [[0,1],[0,2],[0,3],[1,2],[1,3],[2,3]] := by decide
  have hcands : collectCands [t1,t2,t3,t4] (chooseCombos (List.range 4) 2) = .ok
      [(keyOf r12, [t1,t2]), (keyOf r13, [t1,t3]), (keyOf r14, [t1,t4]),
       (keyOf r23, [t2,t3]), (keyOf r24, [t2,t4]), (keyOf r34, [t3,t4])] := by
    rw [hcombos]
    exact collectCands_cons _ _ _ _ _ e12 (collectCands_cons _ _ _ _ _ e13
      (collectCands_cons _ _ _ _ _ e14 (collectCands_cons _ _ _ _ _ e23
      (collectCands_cons _ _ _ _ _ e24 (collectCands_cons _ _ _ _ _ e34 rfl)))))
  rw [k13, k14, k34] at hcands
  have hwin : (selectLeader (buildTally
      [(keyOf r12, [t1,t2]), (((3 : Int), (1 : Int)), [t1,t3]),
       (((3 : Int), (1 : Int)), [t1,t4]), (keyOf r23, [t2,t3]),
       (keyOf r24, [t2,t4]), (((3 : Int), (1 : Int)), [t3,t4])]).1).1 =
      some ((3 : Int), (1 : Int)) := by
    apply winner_three_one
    · simp
    · simp only [countKey, List.countP_cons, List.countP_nil, decide_eq_true_eq]
      split_ifs <;> omega
    · intro k' hk' hne
      simp only [List.map_cons, List.map_nil, List.mem_cons] at hk'
      rcases hk' with h | h | h | h | h | h | h
      · subst h
        have n1 : ¬(keyOf r23 = keyOf r12) := fun hc => kAB hc.symm
        have n2 : ¬(keyOf r24 = keyOf r12) := fun hc => kAC hc.symm
        have n3 : ¬(((3 : Int), (1 : Int)) = keyOf r12) := fun hc => hne hc.symm
        simp [countKey, List.countP_cons, n1, n2, n3]
      · exact absurd h hne
      · exact absurd h hne
      · subst h
        have n1 : ¬(keyOf r12 = keyOf r23) := kAB
        have n2 : ¬(keyOf r24 = keyOf r23) := fun hc => kBC hc.symm
        have n3 : ¬(((3 : Int), (1 : Int)) = keyOf r23) := fun hc => hne hc.symm
        simp [countKey, List.countP_cons, n1, n2, n3]
      · subst h
        have n1 : ¬(keyOf r12 = keyOf r24) := kAC
        have n2 : ¬(keyOf r23 = keyOf r24) := kBC
        have n3 : ¬(((3 : Int), (1 : Int)) = keyOf r24) := fun hc => hne hc.symm
        simp [countKey, List.countP_cons, n1, n2, n3]
      · exact absurd h hne
      · exact absurd h (by simp)
  have hlen' : ¬(sortByX shares0).length < 2 := by
    rw [hS]
    simp
  have hcands' : collectCands (sortByX shares0)
      (chooseCombos (List.range (sortByX shares0).length) 2) = .ok
      [(keyOf r12, [t1,t2]), (((3 : Int), (1 : Int)), [t1,t3]),
       (((3 : Int), (1 : Int)), [t1,t4]), (keyOf r23, [t2,t3]),
       (keyOf r24, [t2,t4]), (((3 : Int), (1 : Int)), [t3,t4])] := by
    rw [hS]
    exact hcands
  have hmk : Rational.make (3 : Int) (1 : Int) = .ok ⟨3, 1⟩ := by
    rw [Rational.make_ok one_ne_zero, Rational.normalize_den_one]
  refine ⟨lookupTrace (buildTally
      [(keyOf r12, [t1,t2]), (((3 : Int), (1 : Int)), [t1,t3]),
       (((3 : Int), (1 : Int)), [t1,t4]), (keyOf r23, [t2,t3]),
       (keyOf r24, [t2,t4]), (((3 : Int), (1 : Int)), [t3,t4])]).2
      ((3 : Int), (1 : Int)), ?_⟩
  rw [recoverSecret_winner shares0 2 hlen' _ hcands' ((3 : Int), (1 : Int)) hwin
    ⟨3, 1⟩ hmk]
  rfl

theorem consensus_core_bad3 (shares0 : List Share) (t1 t2 t3 t4 : Share)
    (hS : sortByX shares0 = [t1, t2, t3, t4])
    (h12 : t1.x ≠ t2.x) (h13 : t1.x ≠ t3.x) (h14 : t1.x ≠ t4.x)
    (h23 : t2.x ≠ t3.x) (h24 : t2.x ≠ t4.x) (h34 : t3.x ≠ t4.x)
    (hb : ¬OnLine t3) (hbx : t3.x ≠ 0)
    (hg1 : OnLine t1) (hg2 : OnLine t2) (hg4 : OnLine t4) :
    ∃ sub, recoverSecret shares0 2 = .ok (.integer 3 sub) := by
  obtain ⟨r12, e12, i12, v12⟩ := reconstruct2 t1 t2 h12
  obtain ⟨r13, e13, i13, v13⟩ := reconstruct2 t1 t3 h13
  obtain ⟨r14, e14, i14, v14⟩ := reconstruct2 t1 t4 h14
  obtain ⟨r23, e23, i23, v23⟩ := reconstruct2 t2 t3 h23
  obtain ⟨r24, e24, i24, v24⟩ := reconstruct2 t2 t4 h24
  obtain ⟨r34, e34, i34, v34⟩ := reconstruct2 t3 t4 h34
  have v34' : r34.toQ = val2 t4 t3 := by rw [v34, val2_swap t3 t4 h34]
  have k12 : keyOf r12 = (3, 1) :=
    keyOf_of_val3 i12 (by rw [v12, val2_good t1 t2 hg1 hg2 h12])
  have k14 : keyOf r14 = (3, 1) :=
    keyOf_of_val3 i14 (by rw [v14, val2_good t1 t4 hg1 hg4 h14])
  have k24 : keyOf r24 = (3, 1) :=
    keyOf_of_val3 i24 (by rw [v24, val2_good t2 t4 hg2 hg4 h24])
  have kAB : keyOf r13 ≠ keyOf r23 := keyOf_ne i13 i23
    (by rw [v13, v23];
        exact val2_bad_ne t1 t2 t3 hg1 hg2 h12 hb hbx (Ne.symm h13) (Ne.symm h23))
  have kAC : keyOf r13 ≠ keyOf r34 := keyOf_ne i13 i34
    (by rw [v13, v34'];
        exact val2_bad_ne t1 t4 t3 hg1 hg4 h14 hb hbx (Ne.symm h13) h34)
  have kBC : keyOf r23 ≠ keyOf r34 := keyOf_ne i23 i34
    (by rw [v23, v34'];
        exact val2_bad_ne t2 t4 t3 hg2 hg4 h24 hb hbx (Ne.symm h23) h34)
  have hcombos : chooseCombos (List.range 4) 2 =
      [[0,1],[0,2],[0,3],[1,2],[1,3],[2,3]] := by decide
  have hcands : collectCands [t1,t2,t3,t4] (chooseCombos (List.range 4) 2) = .ok
      [(keyOf r12, [t1,t2]), (keyOf r13, [t1,t3]), (keyOf r14, [t1,t4]),
       (keyOf r23, [t2,t3]), (keyOf r24, [t2,t4]), (keyOf r34, [t3,t4])] := by
    rw [hcombos]
    exact collectCands_cons _ _ _ _ _ e12 (collectCands_cons _ _ _ _ _ e13
      (collectCands_cons _ _ _ _ _ e14 (collectCands_cons _ _ _ _ _ e23
      (collectCands_cons _ _ _ _ _ e24 (collectCands_cons _ _ _ _ _ e34 rfl)))))
  rw [k12, k14, k24] at hcands
  have hwin : (selectLeader (buildTally
      [(((3 : Int), (1 : Int)), [t1,t2]), (keyOf r13, [t1,t3]),
       (((3 : Int), (1 : Int)), [t1,t4]), (keyOf r23, [t2,t3]),
       (((3 : Int), (1 : Int)), [t2,t4]), (keyOf r34, [t3,t4])]).1).1 =
      some ((3 : Int), (1 : Int)) := by
    apply winner_three_one
    · simp
    · simp only [countKey, List.countP_cons, List.countP_nil, decide_eq_true_eq]
      split_ifs <;> omega
    · intro k' hk' hne
      simp only [List.map_cons, List.map_nil, List.mem_cons] at hk'
      rcases hk' with h | h | h | h | h | h | h
      · exact absurd h hne
      · subst h
        have n1 : ¬(keyOf r23 = keyOf r13) := fun hc => kAB hc.symm
        have n2 : ¬(keyOf r34 = keyOf r13) := fun hc => kAC hc.symm
        have n3 : ¬(((3 : Int), (1 : Int)) = keyOf r13) := fun hc => hne hc.symm
        simp [countKey, List.countP_cons, n1, n2, n3]
      · exact absurd h hne
      · subst h
        have n1 : ¬(keyOf r13 = keyOf r23) := kAB
        have n2 : ¬(keyOf r34 = keyOf r23) := fun hc => kBC hc.symm
        have n3 : ¬(((3 : Int), (1 : Int)) = keyOf r23) := fun hc => hne hc.symm
        simp [countKey, List.countP_cons, n1, n2, n3]
      · exact absurd h hne
      · subst h
        have n1 : ¬(keyOf r13 = keyOf r34) := kAC
        have n2 : ¬(keyOf r23 = keyOf r34) := kBC
        have n3 : ¬(((3 : Int), (1 : Int)) = keyOf r34) := fun hc => hne hc.symm
        simp [countKey, List.countP_cons, n1, n2, n3]
      · exact absurd h (by simp)
  have hlen' : ¬(sortByX shares0).length < 2 := by
    rw [hS]
    simp
  have hcands' : collectCands (sortByX shares0)
      (chooseCombos (List.range (sortByX shares0).length) 2) = .ok
      [(((3 : Int), (1 : Int)), [t1,t2]), (keyOf r13, [t1,t3]),
       (((3 : Int), (1 : Int)), [t1,t4]), (keyOf r23, [t2,t3]),
       (((3 : Int), (1 : Int)), [t2,t4]), (keyOf r34, [t3,t4])] := by
    rw [hS]
    exact hcands
  have hmk : Rational.make (3 : Int) (1 : Int) = .ok ⟨3, 1⟩ := by
    rw [Rational.make_ok one_ne_zero, Rational.normalize_den_one]
  refine ⟨lookupTrace (buildTally
      [(((3 : Int), (1 : Int)), [t1,t2]), (keyOf r13, [t1,t3]),
       (((3 : Int), (1 : Int)), [t1,t4]), (keyOf r23, [t2,t3]),
       (((3 : Int), (1 : Int)), [t2,t4]), (keyOf r34, [t3,t4])]).2
      ((3 : Int), (1 : Int)), ?_⟩
  rw [recoverSecret_winner shares0 2 hlen' _ hcands' ((3 : Int), (1 : Int)) hwin
    ⟨3, 1⟩ hmk]
  rfl

theorem consensus_core_bad4 (shares0 : List Share) (t1 t2 t3 t4 : Share)
    (hS : sortByX shares0 = [t1, t2, t3, t4])
    (h12 : t1.x ≠ t2.x) (h13 : t1.x ≠ t3.x) (h14 : t1.x ≠ t4.x)
    (h23 : t2.x ≠ t3.x) (h24 : t2.x ≠ t4.x) (h34 : t3.x ≠ t4.x)
    (hb : ¬OnLine t4) (hbx : t4.x ≠ 0)
    (hg1 : OnLine t1) (hg2 : OnLine t2) (hg3 : OnLine t3) :
    ∃ sub, recoverSecret shares0 2 = .ok (.integer 3 sub) := by
  obtain ⟨r12, e12, i12, v12⟩ := reconstruct2 t1 t2 h12
  obtain ⟨r13, e13, i13, v13⟩ := reconstruct2 t1 t3 h13
  obtain ⟨r14, e14, i14, v14⟩ := reconstruct2 t1 t4 h14
  obtain ⟨r23, e23, i23, v23⟩ := reconstruct2 t2 t3 h23
  obtain ⟨r24, e24, i24, v24⟩ := reconstruct2 t2 t4 h24
  obtain ⟨r34, e34, i34, v34⟩ := reconstruct2 t3 t4 h34
  have k12 : keyOf r12 = (3, 1) :=
    keyOf_of_val3 i12 (by rw [v12, val2_good t1 t2 hg1 hg2 h12])
  have k13 : keyOf r13 = (3, 1) :=
    keyOf_of_val3 i13 (by rw [v13, val2_good t1 t3 hg1 hg3 h13])
  have k23 : keyOf r23 = (3, 1) :=
    keyOf_of_val3 i23 (by rw [v23, val2_good t2 t3 hg2 hg3 h23])
  have kAB : keyOf r14 ≠ keyOf r24 := keyOf_ne i14 i24
    (by rw [v14, v24];
        exact val2_bad_ne t1 t2 t4 hg1 hg2 h12 hb hbx (Ne.symm h14) (Ne.symm h24))
  have kAC : keyOf r14 ≠ keyOf r34 := keyOf_ne i14 i34
    (by rw [v14, v34];
        exact val2_bad_ne t1 t3 t4 hg1 hg3 h13 hb hbx (Ne.symm h14) (Ne.symm h34))
  have kBC : keyOf r24 ≠ keyOf r34 := keyOf_ne i24 i34
    (by rw [v24, v34];
        exact val2_bad_ne t2 t3 t4 hg2 hg3 h23 hb hbx (Ne.symm h24) (Ne.symm h34))
  have hcombos : chooseCombos (List.range 4) 2 =
      [[0,1],[0,2],[0,3],[1,2],[1,3],[2,3]] := by decide
  have hcands : collectCands [t1,t2,t3,t4] (chooseCombos (List.range 4) 2) = .ok
      [(keyOf r12, [t1,t2]), (keyOf r13, [t1,t3]), (keyOf r14, [t1,t4]),
       (keyOf r23, [t2,t3]), (keyOf r24, [t2,t4]), (keyOf r34, [t3,t4])] := by
    rw [hcombos]
    exact collectCands_cons _ _ _ _ _ e12 (collectCands_cons _ _ _ _ _ e13
      (collectCands_cons _ _ _ _ _ e14 (collectCands_cons _ _ _ _ _ e23
      (collectCands_cons _ _ _ _ _ e24 (collectCands_cons _ _ _ _ _ e34 rfl)))))
  rw [k12, k13, k23] at hcands
  have hwin : (selectLeader (buildTally
      [(((3 : Int), (1 : Int)), [t1,t2]), (((3 : Int), (1 : Int)), [t1,t3]),
       (keyOf r14, [t1,t4]), (((3 : Int), (1 : Int)), [t2,t3]),
       (keyOf r24, [t2,t4]), (keyOf r34, [t3,t4])]).1).1 =
      some ((3 : Int), (1 : Int)) := by
    apply winner_three_one
    · simp
    · simp only [countKey, List.countP_cons, List.countP_nil, decide_eq_true_eq]
      split_ifs <;> omega
    · intro k' hk' hne
      simp only [List.map_cons, List.map_nil, List.mem_cons] at hk'
      rcases hk' with h | h | h | h | h | h | h
      · exact absurd h hne
      · exact absurd h hne
      · subst h
        have n1 : ¬(keyOf r24 = keyOf r14) := fun hc => kAB hc.symm
        have n2 : ¬(keyOf r34 = keyOf r14) := fun hc => kAC hc.symm
        have n3 : ¬(((3 : Int), (1 : Int)) = keyOf r14) := fun hc => hne hc.symm
        simp [countKey, List.countP_cons, n1, n2, n3]
      · exact absurd h hne
      · subst h
        have n1 : ¬(keyOf r14 = keyOf r24) := kAB
        have n2 : ¬(keyOf r34 = keyOf r24) := fun hc => kBC hc.symm
        have n3 : ¬(((3 : Int), (1 : Int)) = keyOf r24) := fun hc => hne hc.symm
        simp [countKey, List.countP_cons, n1, n2, n3]
      · subst h
        have n1 : ¬(keyOf r14 = keyOf r34) := kAC
        have n2 : ¬(keyOf r24 = keyOf r34) := kBC
        have n3 : ¬(((3 : Int), (1 : Int)) = keyOf r34) := fun hc => hne hc.symm
        simp [countKey, List.countP_cons, n1, n2, n3]
      · exact absurd h (by simp)
  have hlen' : ¬(sortByX shares0).length < 2 := by
    rw [hS]
    simp
  have hcands' : collectCands (sortByX shares0)
      (chooseCombos (List.range (sortByX shares0).length) 2) = .ok
      [(((3 : Int), (1 : Int)), [t1,t2]), (((3 : Int), (1 : Int)), [t1,t3]),
       (keyOf r14, [t1,t4]), (((3 : Int), (1 : Int)), [t2,t3]),
       (keyOf r24, [t2,t4]), (keyOf r34, [t3,t4])] := by
    rw [hS]
    exact hcands
  have hmk : Rational.make (3 : Int) (1 : Int) = .ok ⟨3, 1⟩ := by
    rw [Rational.make_ok one_ne_zero, Rational.normalize_den_one]
  refine ⟨lookupTrace (buildTally
      [(((3 : Int), (1 : Int)), [t1,t2]), (((3 : Int), (1 : Int)), [t1,t3]),
       (keyOf r14, [t1,t4]), (((3 : Int), (1 : Int)), [t2,t3]),
       (keyOf r24, [t2,t4]), (keyOf r34, [t3,t4])]).2 ((3 : Int), (1 : Int)), ?_⟩
  rw [recoverSecret_winner shares0 2 hlen' _ hcands' ((3 : Int), (1 : Int)) hwin
    ⟨3, 1⟩ hmk]
  rfl

/-- C1 (amended): consensus robustness. For every share set of four shares
with pairwise-distinct `x`-coordinates in which exactly three lie on the
line `y = 2x + 3` and the remaining (wrong) share has nonzero
`x`-coordinate, the consensus procedure with `k = 2` returns the integer
secret 3 (tagged as an integer). The original claim admitted a wrong share
at `x = 0`, where all three mixed subsets interpolate to the wrong share's
`y`-value and win the tie on first-insertion order. -/
theorem consensus_majority_amended (shares0 : List Share)
    (hlen : shares0.length = 4)
    (hdist : shares0.Pairwise (fun a b => a.x ≠ b.x))
    (hcount : shares0.countP (fun s => decide (OnLine s)) = 3)
    (hbadx : ∀ s ∈ shares0, ¬OnLine s → s.x ≠ 0) :
    ∃ sub, recoverSecret shares0 2 = .ok (.integer 3 sub) := by
  have hlen4 : (sortByX shares0).length = 4 := by
    rw [sortByX_length]
    exact hlen
  obtain ⟨t1, t2, t3, t4, hS⟩ : ∃ a b c d, sortByX shares0 = [a, b, c, d] := by
    rcases hsx : sortByX shares0 with _ | ⟨a, _ | ⟨b, _ | ⟨c, _ | ⟨d, _ | ⟨e, r⟩⟩⟩⟩⟩ <;>
      rw [hsx] at hlen4 <;> simp at hlen4
    exact ⟨a, b, c, d, rfl⟩
  have hdistS : (sortByX shares0).Pairwise (fun a b => a.x ≠ b.x) :=
    ((sortByX_perm shares0).pairwise_iff (fun h => Ne.symm h)).mpr hdist
  rw [hS] at hdistS
  have hpw := hdistS
  simp only [List.pairwise_cons, List.mem_cons, List.mem_singleton,
    List.not_mem_nil] at hpw
  have h12 : t1.x ≠ t2.x := hpw.1 t2 (by simp)
  have h13 : t1.x ≠ t3.x := hpw.1 t3 (by simp)
  have h14 : t1.x ≠ t4.x := hpw.1 t4 (by simp)
  have h23 : t2.x ≠ t3.x := hpw.2.1 t3 (by simp)
  have h24 : t2.x ≠ t4.x := hpw.2.1 t4 (by simp)
  have h34 : t3.x ≠ t4.x := hpw.2.2.1 t4 (by simp)
  have hcountS : (sortByX shares0).countP (fun s => decide (OnLine s)) = 3 := by
    rw [(sortByX_perm shares0).countP_eq]
    exact hcount
  rw [hS] at hcountS
  have hmem1 : t1 ∈ shares0 := (sortByX_perm shares0).mem_iff.mp (by rw [hS]; simp)
  have hmem2 : t2 ∈ shares0 := (sortByX_perm shares0).mem_iff.mp (by rw [hS]; simp)
  have hmem3 : t3 ∈ shares0 := (sortByX_perm shares0).mem_iff.mp (by rw [hS]; simp)
  have hmem4 : t4 ∈ shares0 := (sortByX_perm shares0).mem_iff.mp (by rw [hS]; simp)
  by_cases hO1 : OnLine t1 <;> by_cases hO2 : OnLine t2 <;>
    by_cases hO3 : OnLine t3 <;> by_cases hO4 : OnLine t4
  · simp [List.countP_cons, hO1, hO2, hO3, hO4] at hcountS
  · exact consensus_core_bad4 shares0 t1 t2 t3 t4 hS h12 h13 h14 h23 h24 h34
      hO4 (hbadx t4 hmem4 hO4) hO1 hO2 hO3
  · exact consensus_core_bad3 shares0 t1 t2 t3 t4 hS h12 h13 h14 h23 h24 h34
      hO3 (hbadx t3 hmem3 hO3) hO1 hO2 hO4
  · simp [List.countP_cons, hO1, hO2, hO3, hO4] at hcountS
  · exact consensus_core_bad2 shares0 t1 t2 t3 t4 hS h12 h13 h14 h23 h24 h34
      hO2 (hbadx t2 hmem2 hO2) hO1 hO3 hO4
  · simp [List.countP_cons, hO1, hO2, hO3, hO4] at hcountS
  · simp [List.countP_cons, hO1, hO2, hO3, hO4] at hcountS
  · simp [List.countP_cons, hO1, hO2, hO3, hO4] at hcountS
  · exact consensus_core_bad1 shares0 t1 t2 t3 t4 hS h12 h13 h14 h23 h24 h34
      hO1 (hbadx t1 hmem1 hO1) hO2 hO3 hO4
  · simp [List.countP_cons, hO1, hO2, hO3, hO4] at hcountS
  · simp [List.countP_cons, hO1, hO2, hO3, hO4] at hcountS
  · simp [List.countP_cons, hO1, hO2, hO3, hO4] at hcountS
  · simp [List.countP_cons, hO1, hO2, hO3, hO4] at hcountS
  · simp [List.countP_cons, hO1, hO2, hO3, hO4] at hcountS
  · simp [List.countP_cons, hO1, hO2, hO3, hO4] at hcountS
  · simp [List.countP_cons, hO1, hO2, hO3, hO4] at hcountS

/-! ## Claim theorems, counterexamples, and witnesses -/

/-- C1 counterexample: four shares with distinct `x`-coordinates, exactly
three on `y = 2x + 3` (secret 3) and the wrong share `(0, 99)` off the
line. All three mixed pairs interpolate to 99 (the wrong share sits at
`x = 0`), tying 3–3 with the true secret; the first-inserted value 99 wins
the tie and is returned as the integer secret instead of 3. -/
theorem consensus_majority_counterexample :
    ([⟨0, 99⟩, ⟨1, 5⟩, ⟨2, 7⟩, ⟨3, 9⟩] : List Share).Pairwise
      (fun a b => a.x ≠ b.x) ∧
    ([⟨0, 99⟩, ⟨1, 5⟩, ⟨2, 7⟩, ⟨3, 9⟩] : List Share).countP
      (fun s => decide (OnLine s)) = 3 ∧
    recoverSecret [⟨0, 99⟩, ⟨1, 5⟩, ⟨2, 7⟩, ⟨3, 9⟩] 2 =
      .ok (.integer 99 [⟨0, 99⟩, ⟨1, 5⟩]) := by decide

theorem consensus_majority_amended_witness :
    ∃ sub, recoverSecret [⟨1, 5⟩, ⟨2, 7⟩, ⟨3, 9⟩, ⟨4, 99⟩] 2 =
      .ok (.integer 3 sub) :=
  consensus_majority_amended _ (by decide) (by decide) (by decide) (by decide)

theorem interpolation_exact_witness :
    reconstructAtOrigin [⟨1, 3⟩, ⟨2, 5⟩, ⟨3, 7⟩] = .ok ⟨1, 1⟩ :=
  interpolation_exact _ [1, 2] (by decide) (by decide) (by decide)

/-- C3: the selected winning value carries the maximum tally count; among
values tied at the maximum, the winner is the first (in first-producing
subset order) to reach that count, because only strictly greater counts
update the leader; and each tallied value's retained representative subset
is the first subset (in enumeration order) that produced it. -/
theorem consensus_selection_spec (l : List ((Int × Int) × List Share))
    (k : Int × Int) (hwin : (selectLeader (buildTally l).1).1 = some k) :
    (k ∈ l.map Prod.fst ∧
      (∀ k' ∈ l.map Prod.fst, countKey l k' ≤ countKey l k) ∧
      (∀ k' ∈ l.map Prod.fst, countKey l k' = countKey l k →
        firstIdx l k ≤ firstIdx l k')) ∧
    (∀ k' ∈ l.map Prod.fst,
      lookupTrace (buildTally l).2 k' =
        ((l.find? (fun e => decide (e.1 = k'))).map Prod.snd).getD []) :=
  ⟨consensus_winner_spec l k hwin, consensus_trace_spec l⟩

theorem consensus_selection_spec_witness :
    ((2 : Int), (1 : Int)) ∈
      ([((2, 1), []), ((3, 1), []), ((2, 1), [])] :
        List ((Int × Int) × List Share)).map Prod.fst :=
  (consensus_selection_spec [((2, 1), []), ((3, 1), []), ((2, 1), [])]
    (2, 1) (by decide)).1.1

/-- C4: every rational observable from the public constructor or an
arithmetic operation is in normal form — positive denominator and coprime
components (zero becomes `0/1`) — and hence two results with the same
mathematical value are structurally equal. -/
theorem rational_normal_form :
    (∀ (n d : Int) (r : Rational), Rational.make n d = .ok r → r.Inv) ∧
    (∀ a b r : Rational, a.Inv → b.Inv → a.add b = .ok r → r.Inv) ∧
    (∀ a b r : Rational, a.Inv → b.Inv → a.sub b = .ok r → r.Inv) ∧
    (∀ a b r : Rational, a.Inv → b.Inv → a.mul b = .ok r → r.Inv) ∧
    (∀ a b r : Rational, a.Inv → b.Inv → a.div b = .ok r → r.Inv) ∧
    (∀ a r : Rational, a.Inv → a.neg = .ok r → r.Inv) ∧
    (∀ r s : Rational, r.Inv → s.Inv → r.toQ = s.toQ → r = s) := by
  have hmake : ∀ (n d : Int) (r : Rational), Rational.make n d = .ok r → r.Inv := by
    intro n d r h
    rw [Rational.make] at h
    by_cases hd : d = 0
    · rw [if_pos hd] at h
      cases h
    · rw [if_neg hd] at h
      injection h with h2
      rw [← h2]
      exact Rational.normalize_inv n d hd
  refine ⟨hmake, ?_, ?_, ?_, ?_, ?_, ?_⟩
  · intro a b r _ _ h
    exact hmake _ _ r h
  · intro a b r _ _ h
    exact hmake _ _ r h
  · intro a b r _ _ h
    exact hmake _ _ r h
  · intro a b r _ _ h
    rw [Rational.div] at h
    by_cases hz : b.num = 0
    · rw [if_pos hz] at h
      cases h
    · rw [if_neg hz] at h
      exact hmake _ _ r h
  · intro a r _ h
    exact hmake _ _ r h
  · intro r s hr hs h
    exact Rational.inv_toQ_inj hr hs h

theorem rational_normal_form_witness :
    (Rational.mk (-3) 2).Inv ∧ (Rational.mk 5 6).Inv ∧
    (Rational.mk 3 2) = (Rational.mk 3 2) :=
  ⟨rational_normal_form.1 6 (-4) ⟨-3, 2⟩ (by decide),
   rational_normal_form.2.1 ⟨1, 2⟩ ⟨1, 3⟩ ⟨5, 6⟩ (by decide) (by decide) (by decide),
   rational_normal_form.2.2.2.2.2.2 ⟨3, 2⟩ ⟨3, 2⟩ (by decide) (by decide) rfl⟩

/-- C5: for `1 ≤ k ≤ n` the enumerator over `n` indices yields exactly
`C(n, k)` subsets, each a strictly increasing sequence of `k` indices below
`n`, with no subset repeated, and re-running it gives the identical list. -/
theorem chooseCombos_spec (n k : Nat) (hk1 : 1 ≤ k) (hk2 : k ≤ n) :
    (chooseCombos (List.range n) k).length = n.choose k ∧
    (∀ c ∈ chooseCombos (List.range n) k,
      c.length = k ∧ c.Pairwise (· < ·) ∧ ∀ x ∈ c, x < n) ∧
    (chooseCombos (List.range n) k).Nodup ∧
    chooseCombos (List.range n) k = chooseCombos (List.range n) k := by
  have harr : (List.range n).length = n := List.length_range n
  refine ⟨?_, ?_, ?_, rfl⟩
  · rw [chooseCombos, harr, backtrack_length]
    simp
  · intro c hc
    rw [chooseCombos, harr] at hc
    obtain ⟨tail, hct, hlen, hpw, hbd⟩ := backtrack_shape n k 0 [] c hc
    rw [List.nil_append] at hct
    subst hct
    exact ⟨hlen, hpw, fun x hx => (hbd x hx).2⟩
  · rw [chooseCombos, harr]
    exact backtrack_nodup n k 0 []

theorem chooseCombos_spec_witness :
    (chooseCombos (List.range 4) 2).length = Nat.choose 4 2 :=
  (chooseCombos_spec 4 2 (by decide) (by decide)).1

/-- C6 counterexample: with `k = 0` the consensus procedure does not fail
with `NoConsensusError`; the single empty subset interpolates to `0/1`, so
the tally is non-empty and the procedure returns the integer 0. -/
theorem noConsensus_counterexample :
    recoverSecret [⟨1, 5⟩] 0 = .ok (.integer 0 []) := by decide

theorem recoverSecret_never_noConsensus_witness :
    recoverSecret [⟨1, 5⟩] 0 ≠ .error .noConsensus :=
  recoverSecret_never_noConsensus [⟨1, 5⟩] 0 (by decide)

/-- C7: constructing a rational with denominator 0 fails with the
division-by-zero error; the engine on a subset with two equal
`x`-coordinates fails with the division-by-zero error rather than
returning a value; and on pairwise-distinct `x`-coordinates no error is
raised. -/
theorem divisionByZero_spec :
    (∀ n : Int, ∃ e, Rational.make n 0 = .error e ∧ e.isDivisionByZero = true) ∧
    (∀ pts : List Share, ¬pts.Pairwise (fun a b => a.x ≠ b.x) →
      ∃ e, reconstructAtOrigin pts = .error e ∧ e.isDivisionByZero = true) ∧
    (∀ pts : List Share, pts.Pairwise (fun a b => a.x ≠ b.x) →
      ∃ r, reconstructAtOrigin pts = .ok r) := by
  refine ⟨?_, ?_, ?_⟩
  · intro n
    exact ⟨.denominatorZero, by rw [Rational.make, if_pos rfl], rfl⟩
  · intro pts h
    exact ⟨.divideByZero, reconstructAtOrigin_dup pts h, rfl⟩
  · intro pts h
    obtain ⟨r, hr, _, _⟩ := reconstructAtOrigin_spec pts h
    exact ⟨r, hr⟩

theorem divisionByZero_spec_witness :
    (∃ e, Rational.make 5 0 = .error e ∧ e.isDivisionByZero = true) ∧
    (∃ e, reconstructAtOrigin [⟨1, 1⟩, ⟨1, 2⟩] = .error e ∧
      e.isDivisionByZero = true) ∧
    (∃ r, reconstructAtOrigin [⟨1, 1⟩, ⟨2, 2⟩] = .ok r) :=
  ⟨divisionByZero_spec.1 5, divisionByZero_spec.2.1 _ (by decide),
   divisionByZero_spec.2.2 _ (by decide)⟩

theorem make_toIntegerIfExact_witness :
    (∃ r, Rational.make 6 (-2) = .ok r ∧
      (((-2 : Int) ∣ 6 → r.toIntegerIfExact = some (6 / (-2))) ∧
       (¬((-2 : Int) ∣ 6) → r.toIntegerIfExact = none))) ∧
    (∃ r, Rational.make 7 (-2) = .ok r ∧
      (((-2 : Int) ∣ 7 → r.toIntegerIfExact = some (7 / (-2))) ∧
       (¬((-2 : Int) ∣ 7) → r.toIntegerIfExact = none))) :=
  ⟨make_toIntegerIfExact 6 (-2) (by decide), make_toIntegerIfExact 7 (-2) (by decide)⟩

theorem recoverSecret_insufficient_witness :
    recoverSecret [⟨1, 5⟩, ⟨2, 7⟩] 3 = .error .notEnoughShares :=
  recoverSecret_insufficient _ 3 (by decide)

/-- C10: the two independent interpolation implementations agree — on any
non-empty point list with pairwise-distinct `x`-coordinates, the
`Fraction`-based engine of the first program and the `Rational`-based
engine of the second return the same reduced rational, component for
component. -/
theorem engines_agree (pts : List Share) (hne : pts ≠ [])
    (hdist : pts.Pairwise (fun a b => a.x ≠ b.x)) :
    ∃ (f : Fraction) (r : Rational), lagrangeAtZeroFraction pts = .ok f ∧
      reconstructAtOrigin pts = .ok r ∧ f.n = r.num ∧ f.d = r.den := by
  obtain ⟨f, hf, hfinv, hfval⟩ := lagrangeAtZeroFraction_spec pts hdist
  obtain ⟨r, hr, hrinv, hrval⟩ := reconstructAtOrigin_spec pts hdist
  obtain ⟨h1, h2⟩ := frac_rat_components hfinv hrinv (by rw [hfval, hrval])
  exact ⟨f, r, hf, hr, h1, h2⟩

theorem engines_agree_witness :
    ∃ (f : Fraction) (r : Rational),
      lagrangeAtZeroFraction [⟨1, 3⟩, ⟨2, 5⟩] = .ok f ∧
      reconstructAtOrigin [⟨1, 3⟩, ⟨2, 5⟩] = .ok r ∧ f.n = r.num ∧ f.d = r.den :=
  engines_agree _ (by decide) (by decide)
